import Mathlib

/-!
# Watson node SDK: microphone transcription example and RetrieveAndRank wrapper

Part 1 embeds `examples/speech_to_text_microphone_input/transcribe-mic-to-file.js`
as an event-driven process: the top-level script runs once, then the event loop
dispatches environment events to the listeners the script registered.

Part 2 embeds `services/retrieve_and_rank/v1.js` over an explicit object heap, so
that sharing and mutation of option objects are visible.
-/

namespace TranscribeMic

/-- A chunk of bytes travelling on a stream. -/
abbrev Chunk := List Nat

/-- The four streams of the script: `micInputStream`, `wavStream`,
`recognizeStream` and the write stream on `./transcription.txt`. -/
inductive Stream
  | micInputStream
  | wavStream
  | recognizeStream
  | transcriptionFile
deriving DecidableEq, Repr

/-- Event emitters the script attaches listeners to. -/
inductive Emitter
  | stdin
  | recognizeStream
deriving DecidableEq, Repr

/-- Event names used with `on` / `once`. -/
inductive EventName
  | data
  | ended
  | error
deriving DecidableEq, Repr

/-- The two function literals of the script: the stop handler of lines 44-51 and
the exit handler of lines 48-50. -/
inductive Handler
  | stopHandler
  | exitHandler
deriving DecidableEq, Repr

/-- A registered listener; `once` listeners are removed when they fire. -/
structure Listener where
  target : Emitter
  event : EventName
  once : Bool
  handler : Handler
deriving DecidableEq, Repr

/-- Calls the script makes, in program order. -/
inductive Action
  | getAudioStream
  | newFileWriter (path : String)
  | createWriteStream (path : String)
  | recognizeUsingWebSocket
  | pipe (src dst : Stream)
  | log (msg : String)
  | setRawMode (raw : Bool)
  | addListener (l : Listener)
  | micStart
  | micStop
  | processExit (code : Option Nat)
deriving DecidableEq, Repr

/-- How the process stands: still running, ended by `process.exit`, or ended by
an exception nobody caught. -/
inductive Status
  | running
  | exited (code : Nat)
  | uncaught (err : String)
deriving DecidableEq, Repr

/-- The behaviour of the `wav` encoder, which is a library outside the
repository: the chunks it pushes when constructed and the chunks it pushes for
each chunk written to it. -/
structure Encoder where
  onOpen : List Chunk
  onWrite : Chunk → List Chunk

/-- The `wav.Writer` behaviour: a header chunk first, then every chunk unchanged. -/
def wavWriter (header : Chunk) : Encoder :=
  { onOpen := [header], onWrite := fun c => [c] }

/-- Process state. -/
structure Proc where
  trace : List Action
  pipes : List (Stream × Stream)
  listeners : List Listener
  exitCode : Option Nat
  status : Status
  wavBuf : List Chunk
  wavIn : List Chunk
  recIn : List Chunk
  fileIn : List Chunk
  wavFinalized : Bool
  sinkClosed : Bool
  pendingOpens : List String
  opened : List String
deriving DecidableEq, Repr

/-- Environment events delivered by the event loop. -/
inductive Event
  | frame (f : Chunk)
  | result (r : Chunk)
  | stdinData
  | recognizeEnd
  | recognizeError
  | wavFinalizeDone
  | sinkCloseDone
  | fileOpened (path : String)
deriving DecidableEq, Repr

/-- The process before the first statement of the script. -/
def Proc.init : Proc :=
  { trace := [], pipes := [], listeners := [], exitCode := none, status := .running,
    wavBuf := [], wavIn := [], recIn := [], fileIn := [],
    wavFinalized := false, sinkClosed := false, pendingOpens := [], opened := [] }

/-- Append a call to the trace. -/
def Proc.act (p : Proc) (a : Action) : Proc :=
  { p with trace := p.trace ++ [a] }

/-- Destinations `s` is piped to, in the order the pipes were made. -/
def Proc.dests (p : Proc) (s : Stream) : List Stream :=
  (p.pipes.filter (fun e => e.1 = s)).map (fun e => e.2)

/-- Stream `d` receives chunk `c`. -/
def Proc.record (p : Proc) (d : Stream) (c : Chunk) : Proc :=
  match d with
  | .micInputStream => p
  | .wavStream => { p with wavIn := p.wavIn ++ [c] }
  | .recognizeStream => { p with recIn := p.recIn ++ [c] }
  | .transcriptionFile => { p with fileIn := p.fileIn ++ [c] }

/-- Stream `s` pushes `c` to each of its pipe destinations. -/
def Proc.push (p : Proc) (s : Stream) (c : Chunk) : Proc :=
  (p.dests s).foldl (fun q d => q.record d c) p

/-- A write of `c` to `d`; a write to `wavStream` also makes the encoder push
its output for `c` down `wavStream`'s own pipes. -/
def Proc.write (enc : Encoder) (p : Proc) (d : Stream) (c : Chunk) : Proc :=
  match d with
  | .wavStream => (enc.onWrite c).foldl (fun q o => q.push .wavStream o) (p.record .wavStream c)
  | d => p.record d c

/-- Stream `s` emits a data chunk: the pipes write it to every destination. -/
def Proc.emitData (enc : Encoder) (p : Proc) (s : Stream) (c : Chunk) : Proc :=
  (p.dests s).foldl (fun q d => q.write enc d c) p

/-- A write stream is constructed on `path`: the stream asks for the file to be
opened, and the file is opened (and created) only when the event loop later
delivers that open. -/
def Proc.requestOpen (p : Proc) (path : String) : Proc :=
  { p with pendingOpens := p.pendingOpens ++ [path] }

/-- The event loop delivers the open of `path`: a file whose open was asked for
is now opened. -/
def Proc.completeOpen (p : Proc) (path : String) : Proc :=
  if path ∈ p.pendingOpens then
    { p with pendingOpens := p.pendingOpens.erase path, opened := p.opened ++ [path] }
  else p

/-- The call `src.pipe(dst)`. -/
def Proc.pipe (p : Proc) (src dst : Stream) : Proc :=
  { (p.act (.pipe src dst)) with pipes := p.pipes ++ [(src, dst)] }

/-- The calls `emitter.on(event, handler)` and `emitter.once(event, handler)`. -/
def Proc.addListener (p : Proc) (l : Listener) : Proc :=
  { (p.act (.addListener l)) with listeners := p.listeners ++ [l] }

/-- Call `process.exit(code)`: without an argument the status is
`process.exitCode`, or 0 when that was never set. -/
def Proc.processExit (p : Proc) (code : Option Nat) : Proc :=
  { (p.act (.processExit code)) with status := .exited (code.getD (p.exitCode.getD 0)) }

/-- Modelled from the spec: the `mic` package is outside the repository, and
section 4.1 has the audio source fail fast at `start()` with `DeviceUnavailable`
when the device is unavailable. The call `micInstance.start()` is line 53;
whether the device is available is a parameter, and with an unavailable device
the call throws. -/
def Proc.micStart (p : Proc) (deviceOk : Bool) : Proc :=
  let q := p.act .micStart
  if deviceOk then q else { q with status := .uncaught "DeviceUnavailable" }

/-- The listener of line 44: `process.stdin.once('data', ...)`. -/
def stdinListener : Listener :=
  { target := .stdin, event := .data, once := true, handler := .stopHandler }

/-- The listener of line 48: `recognizeStream.on('end', ...)`. -/
def endListener : Listener :=
  { target := .recognizeStream, event := .ended, once := false, handler := .exitHandler }

/-- The body of a handler: lines 45 to 50 for the stop handler, line 49 for the
exit handler. -/
def runHandler (p : Proc) : Handler → Proc
  | .stopHandler =>
    let p := p.act (.log "Cleaning up and exiting...")
    let p := p.act (.setRawMode false)
    let p := p.act .micStop
    p.addListener endListener
  | .exitHandler => p.processExit none

/-- The top-level statements of the script before the last one, lines 13 to 51:
the state in which `micInstance.start()` is invoked. -/
def untilStart (enc : Encoder) : Proc :=
  let p := Proc.init
  let p := p.act .getAudioStream
  let p := { ((p.act (.newFileWriter "./audio.wav")).requestOpen "./audio.wav") with
             wavBuf := enc.onOpen }
  let p := p.act .recognizeUsingWebSocket
  let p := p.pipe .micInputStream .wavStream
  let p := p.pipe .wavStream .recognizeStream
  let p := (p.act (.createWriteStream "./transcription.txt")).requestOpen "./transcription.txt"
  let p := p.pipe .recognizeStream .transcriptionFile
  let p := p.act (.log "Recording, press any key to exit")
  let p := p.act (.setRawMode true)
  p.addListener stdinListener

/-- The top-level statements of the script, lines 13 to 53. -/
def topLevel (enc : Encoder) (deviceOk : Bool) : Proc :=
  (untilStart enc).micStart deviceOk

/-- After the script's first turn, what the encoder buffered flows down its pipes. -/
def Proc.flush (p : Proc) : Proc :=
  match p.status with
  | .running => { (p.wavBuf.foldl (fun q o => q.push .wavStream o) p) with wavBuf := [] }
  | _ => p

/-- The first turn of the event loop: the script, then the buffered output. -/
def boot (enc : Encoder) (deviceOk : Bool) : Proc :=
  (topLevel enc deviceOk).flush

/-- Run handlers in order; a handler runs only while the process is running. -/
def runHandlers (p : Proc) : List Handler → Proc
  | [] => p
  | h :: hs =>
    match p.status with
    | .running => runHandlers (runHandler p h) hs
    | _ => p

/-- The emitter `t` emits `e`: an `error` nobody listens to is thrown; otherwise
the listeners run in registration order, one-shot listeners being removed first. -/
def Proc.dispatch (p : Proc) (t : Emitter) (e : EventName) : Proc :=
  let hit := p.listeners.filter (fun l => l.target = t ∧ l.event = e)
  if e = .error ∧ hit = [] then
    { p with status := .uncaught "Unhandled error event" }
  else
    let keep := p.listeners.filter (fun l => ¬ (l.target = t ∧ l.event = e ∧ l.once = true))
    runHandlers { p with listeners := keep } (hit.map (fun l => l.handler))

/-- One turn of the event loop. -/
def step (enc : Encoder) (p : Proc) (ev : Event) : Proc :=
  match p.status with
  | .running =>
    match ev with
    | .frame f => p.emitData enc .micInputStream f
    | .result r => p.emitData enc .recognizeStream r
    | .stdinData => p.dispatch .stdin .data
    | .recognizeEnd => p.dispatch .recognizeStream .ended
    | .recognizeError => p.dispatch .recognizeStream .error
    | .wavFinalizeDone => { p with wavFinalized := true }
    | .sinkCloseDone => { p with sinkClosed := true }
    | .fileOpened path => p.completeOpen path
  | _ => p

/-- The events in order, from a given state. -/
def runFrom (enc : Encoder) (p : Proc) (es : List Event) : Proc :=
  es.foldl (step enc) p

/-- The whole run: the script, then the events in order. -/
def run (enc : Encoder) (es : List Event) : Proc :=
  runFrom enc (boot enc true) es

/-- The frames among the events, in order. -/
def framesOf : List Event → List Chunk
  | [] => []
  | .frame f :: es => f :: framesOf es
  | _ :: es => framesOf es

/-- The recognition results among the events, in order. -/
def resultsOf : List Event → List Chunk
  | [] => []
  | .result r :: es => r :: resultsOf es
  | _ :: es => resultsOf es

/-- Every `process.exit` in the trace has a `micInstance.stop()` before it. -/
def stopBeforeExit : List Action → Bool
  | [] => true
  | .processExit _ :: _ => false
  | .micStop :: _ => true
  | _ :: as => stopBeforeExit as

/-- Events that are neither a key press nor an end or error of the recognition
stream. -/
def Event.benign : Event → Bool
  | .frame _ => true
  | .result _ => true
  | .wavFinalizeDone => true
  | .sinkCloseDone => true
  | .fileOpened _ => true
  | _ => false

/-- The pipes of the script, lines 30, 32 and 34. -/
def wiring : List (Stream × Stream) :=
  [(.micInputStream, .wavStream), (.wavStream, .recognizeStream),
   (.recognizeStream, .transcriptionFile)]

/-- The calls of the top-level script, in order. -/
def scriptTrace : List Action :=
  [.getAudioStream, .newFileWriter "./audio.wav", .recognizeUsingWebSocket,
   .pipe .micInputStream .wavStream, .pipe .wavStream .recognizeStream,
   .createWriteStream "./transcription.txt", .pipe .recognizeStream .transcriptionFile,
   .log "Recording, press any key to exit", .setRawMode true,
   .addListener stdinListener, .micStart]

/-- The calls of the stop handler, in order. -/
def stopTrace : List Action :=
  [.log "Cleaning up and exiting...", .setRawMode false, .micStop, .addListener endListener]

/-- Listeners registered for `error` on `recognizeStream`. -/
def errorListeners (p : Proc) : List Listener :=
  p.listeners.filter (fun l => l.target = .recognizeStream ∧ l.event = .error)

/-- What holds of every state the script can reach. -/
structure Inv (p : Proc) : Prop where
  pipes : p.pipes = wiring
  exitCode : p.exitCode = none
  phase :
    (p.listeners = [stdinListener] ∧ p.trace = scriptTrace ∧
        (p.status = .running ∨ p.status = .uncaught "Unhandled error event"))
    ∨ (p.listeners = [endListener] ∧ p.trace = scriptTrace ++ stopTrace ∧
        (p.status = .running ∨ p.status = .uncaught "Unhandled error event"))
    ∨ (p.listeners = [endListener] ∧
        p.trace = scriptTrace ++ stopTrace ++ [.processExit none] ∧ p.status = .exited 0)

end TranscribeMic

namespace RetrieveAndRankV1

/-- JavaScript values. Objects and arrays live in the heap and are named by their
address, so that two values can share one object. Numbers are restricted to
integers and `NaN`. -/
inductive Val
  | undefined
  | null
  | bool (b : Bool)
  | num (n : Int)
  | nan
  | str (s : String)
  | func (id : Nat)
  | ref (a : Nat)
deriving DecidableEq, Repr

/-- A heap object: its own enumerable properties in insertion order. -/
structure Obj where
  isArray : Bool
  props : List (String × Val)
deriving DecidableEq, Repr

/-- The heap; the address of an object is its index. -/
abbrev Heap := List Obj

/-- JavaScript truthiness, the meaning of `!v` and `v || w`. -/
def truthy : Val → Bool
  | .undefined => false
  | .null => false
  | .bool b => b
  | .num n => n != 0
  | .nan => false
  | .str s => s != ""
  | .func _ => true
  | .ref _ => true

/-- Property read `v.k`; primitives and missing keys give `undefined`. -/
def getProp (h : Heap) (v : Val) (k : String) : Val :=
  match v with
  | .ref a =>
    match h[a]? with
    | some o => (o.props.lookup k).getD .undefined
    | none => .undefined
  | _ => .undefined

/-- Assignment of one property inside an object: an existing key keeps its
place, a new key goes last. -/
def Obj.assign (o : Obj) (k : String) (v : Val) : Obj :=
  if o.props.any (fun e => e.1 == k) then
    { o with props := o.props.map (fun e => if e.1 == k then (k, v) else e) }
  else
    { o with props := o.props ++ [(k, v)] }

/-- Property write `target.k = v` in strict mode: writing on anything but an
object throws, which is `none`. -/
def setProp (h : Heap) (target : Val) (k : String) (v : Val) : Option Heap :=
  match target with
  | .ref a =>
    match h[a]? with
    | some o => some (h.set a (o.assign k v))
    | none => none
  | _ => none

/-- The properties of the copy of an object or array, given the copy of a value:
`JSON.stringify` leaves out properties holding `undefined` or a function, and
writes `null` for such array elements. -/
def copyProps (f : Heap → Val → Option (Heap × Val)) (isArray : Bool) :
    Heap → List (String × Val) → Option (Heap × List (String × Val))
  | h, [] => some (h, [])
  | h, (k, .undefined) :: rest =>
    if isArray then (copyProps f isArray h rest).map (fun r => (r.1, (k, .null) :: r.2))
    else copyProps f isArray h rest
  | h, (k, .func _) :: rest =>
    if isArray then (copyProps f isArray h rest).map (fun r => (r.1, (k, .null) :: r.2))
    else copyProps f isArray h rest
  | h, (k, v) :: rest =>
    match f h v with
    | none => none
    | some (h1, v1) => (copyProps f isArray h1 rest).map (fun r => (r.1, (k, v1) :: r.2))

/-- The deep copy `JSON.parse(JSON.stringify(v))`: every object reached from `v`
is rebuilt in a newly allocated heap cell. `none` is a throw: a top-level
`undefined` or function, or nesting deeper than the fuel (a cycle, given fuel
above the heap size). -/
def jsonCopy : Nat → Heap → Val → Option (Heap × Val)
  | _, _, .undefined => none
  | _, _, .func _ => none
  | _, h, .null => some (h, .null)
  | _, h, .bool b => some (h, .bool b)
  | _, h, .num n => some (h, .num n)
  | _, h, .nan => some (h, .null)
  | _, h, .str s => some (h, .str s)
  | 0, _, .ref _ => none
  | n + 1, h, .ref a =>
    match h[a]? with
    | none => none
    | some o =>
      match copyProps (fun h1 v1 => jsonCopy n h1 v1) o.isArray h o.props with
      | none => none
      | some (h1, ps) => some (h1 ++ [{ isArray := o.isArray, props := ps }], .ref h1.length)

/-- The `extend(target, options)` of the `extend` package without the deep flag:
each own property of `options` that is not `undefined` and is not `target`
itself is assigned on `target`. -/
def extend (h : Heap) (target : Nat) (options : Option Nat) : Heap :=
  match options with
  | none => h
  | some a =>
    match h[a]? with
    | none => h
    | some o =>
      o.props.foldl
        (fun g e =>
          if e.2 = .undefined ∨ e.2 = .ref target then g
          else (setProp g (.ref target) e.1 e.2).getD g)
        h

/-- The object literal `serviceDefaults` of the constructor. -/
def serviceDefaults : Obj :=
  { isArray := false,
    props := [("version", .str "v1"),
              ("url", .str "https://gateway.watsonplatform.net/retrieve-and-rank/api")] }

/-- A service instance: `this._options`. -/
structure Service where
  _options : Val
deriving DecidableEq, Repr

/-- The constructor `RetrieveAndRank(options)`, lines 25 to 33; `options` is the
address of the caller's options object, or `none` when it is absent. -/
def RetrieveAndRank (h : Heap) (options : Option Nat) : Heap × Service :=
  (extend (h ++ [serviceDefaults]) h.length options, { _options := .ref h.length })

/-- The result of `url.parse`. -/
structure ParsedUrl where
  hostname : Val
  path : Val
  port : Val
deriving DecidableEq, Repr

/-- Built-ins of the platform and of libraries outside the repository, taken as
parameters; `none` is a throw. -/
structure Platform where
  toStr : Val → String
  stringify : Heap → Val → Option (Option String)
  readFileSync : Val → Option (List Nat)
  urlParse : Val → Option ParsedUrl

/-- The argument of `requestFactory`. -/
structure Request where
  method : String
  url : String
  defaultOptions : Val
deriving DecidableEq, Repr

/-- The argument of `solr.createClient`. -/
structure SolrConfig where
  host : Val
  path : String
  port : Val
  secure : Bool
  core : Val
deriving DecidableEq, Repr

/-- What a call does to the outside, in order. -/
inductive Effect
  | callback (error : String)
  | readFile (path : Val)
  | request (r : Request)
  | createClient (cfg : SolrConfig)
  | basicAuth (username password : Val)
deriving DecidableEq, Repr

/-- The outcome of a call: the heap it leaves, its effects in order, and the
exception it threw, if any. -/
structure Run where
  heap : Heap
  effects : List Effect
  threw : Option String
deriving DecidableEq, Repr

def Effect.isRequest : Effect → Bool
  | .request _ => true
  | _ => false

def Effect.isCallback : Effect → Bool
  | .callback _ => true
  | _ => false

/-- The string a value contributes to a `+` with a string. -/
def strOf (pf : Platform) : Val → String
  | .str s => s
  | v => pf.toStr v

def solrClustersPath : String :=
  "/v1/solr_clusters"

def solrClusterPath (pf : Platform) (clusterId : Val) : String :=
  solrClustersPath ++ "/" ++ strOf pf clusterId

def solrConfigsPath (pf : Platform) (clusterId : Val) : String :=
  solrClusterPath pf clusterId ++ "/config"

def solrConfigPath (pf : Platform) (clusterId configName : Val) : String :=
  solrConfigsPath pf clusterId ++ "/" ++ strOf pf configName

def adminCollectionsPath (pf : Platform) (clusterId : Val) (action : String) : String :=
  solrClusterPath pf clusterId ++ "/solr/admin/collections?action=" ++ action

def sendRequest (h : Heap) (method url : String) (options : Val) : Run :=
  { heap := h, effects := [.request { method := method, url := url, defaultOptions := options }],
    threw := none }

/-- The early return `callback(new Error('Missing required parameter: ' + name))`. -/
def missing (h : Heap) (name : String) : Run :=
  { heap := h, effects := [.callback ("Missing required parameter: " ++ name)], threw := none }

/-- Lines 63 to 66 and 144 to 147: make sure the options have a `headers` object,
then set its `Content-Type`. -/
def setContentType (h : Heap) (opts : Val) (contentType : String) : Option Heap :=
  let withHeaders :=
    if getProp h opts "headers" = .undefined then
      setProp (h ++ [{ isArray := false, props := [] }]) opts "headers" (.ref h.length)
    else some h
  match withHeaders with
  | none => none
  | some h1 => setProp h1 (getProp h1 opts "headers") "Content-Type" (.str contentType)

/-- The value `JSON.stringify` returned: a string, or `undefined`. -/
def textVal : Option String → Val
  | some s => .str s
  | none => .undefined

def listClusters (h : Heap) (self : Service) : Run :=
  sendRequest h "GET" solrClustersPath self._options

def createCluster (pf : Platform) (h : Heap) (self : Service) (params : Val) : Run :=
  match jsonCopy (h.length + 1) h self._options with
  | none => { heap := h, effects := [], threw := some "TypeError" }
  | some (h1, createOptions) =>
    let h2 := if truthy params then h1 else h1 ++ [{ isArray := false, props := [] }]
    let arg := if truthy params then params else .ref h1.length
    match pf.stringify h2 arg with
    | none => { heap := h2, effects := [], threw := some "TypeError" }
    | some text =>
      match setProp h2 createOptions "body" (textVal text) with
      | none => { heap := h2, effects := [], threw := some "TypeError" }
      | some h3 =>
        match setContentType h3 createOptions "application/json" with
        | none => { heap := h3, effects := [], threw := some "TypeError" }
        | some h4 => sendRequest h4 "POST" solrClustersPath createOptions

def pollCluster (pf : Platform) (h : Heap) (self : Service) (params : Val) : Run :=
  if !truthy params || !truthy (getProp h params "cluster_id") then
    missing h "cluster_id"
  else
    sendRequest h "GET" (solrClusterPath pf (getProp h params "cluster_id")) self._options

def deleteCluster (pf : Platform) (h : Heap) (self : Service) (params : Val) : Run :=
  if !truthy params || !truthy (getProp h params "cluster_id") then
    missing h "cluster_id"
  else
    sendRequest h "DELETE" (solrClusterPath pf (getProp h params "cluster_id")) self._options

def listConfigs (pf : Platform) (h : Heap) (self : Service) (params : Val) : Run :=
  if !truthy params || !truthy (getProp h params "cluster_id") then
    missing h "cluster_id"
  else
    sendRequest h "GET" (solrConfigsPath pf (getProp h params "cluster_id")) self._options

/-- The buffer `fs.readFileSync` returns, as an array of byte values. -/
def bufferObj (bytes : List Nat) : Obj :=
  { isArray := true, props := bytes.enum.map (fun e => (toString e.1, .num e.2)) }

def uploadConfig (pf : Platform) (h : Heap) (self : Service) (params : Val) : Run :=
  if !truthy params || !truthy (getProp h params "cluster_id") then
    missing h "cluster_id"
  else if !truthy (getProp h params "config_name") then
    missing h "config_name"
  else if !truthy (getProp h params "config_zip_path") then
    missing h "config_zip_path"
  else
    match jsonCopy (h.length + 1) h self._options with
    | none => { heap := h, effects := [], threw := some "TypeError" }
    | some (h1, uploadOptions) =>
      let file := getProp h params "config_zip_path"
      match pf.readFileSync file with
      | none => { heap := h1, effects := [.readFile file], threw := some "Error" }
      | some bytes =>
        match setProp (h1 ++ [bufferObj bytes]) uploadOptions "body" (.ref h1.length) with
        | none => { heap := h1 ++ [bufferObj bytes], effects := [.readFile file],
                    threw := some "TypeError" }
        | some h3 =>
          match setContentType h3 uploadOptions "application/zip" with
          | none => { heap := h3, effects := [.readFile file], threw := some "TypeError" }
          | some h4 =>
            let r := sendRequest h4 "POST"
              (solrConfigPath pf (getProp h params "cluster_id") (getProp h params "config_name"))
              uploadOptions
            { r with effects := .readFile file :: r.effects }

def getConfig (pf : Platform) (h : Heap) (self : Service) (params : Val) : Run :=
  if !truthy params || !truthy (getProp h params "cluster_id") then
    missing h "cluster_id"
  else if !truthy (getProp h params "config_name") then
    missing h "config_name"
  else
    sendRequest h "GET"
      (solrConfigPath pf (getProp h params "cluster_id") (getProp h params "config_name"))
      self._options

def deleteConfig (pf : Platform) (h : Heap) (self : Service) (params : Val) : Run :=
  if !truthy params || !truthy (getProp h params "cluster_id") then
    missing h "cluster_id"
  else if !truthy (getProp h params "config_name") then
    missing h "config_name"
  else
    sendRequest h "DELETE"
      (solrConfigPath pf (getProp h params "cluster_id") (getProp h params "config_name"))
      self._options

def listCollections (pf : Platform) (h : Heap) (self : Service) (params : Val) : Run :=
  if !truthy params || !truthy (getProp h params "cluster_id") then
    missing h "cluster_id"
  else
    sendRequest h "GET" (adminCollectionsPath pf (getProp h params "cluster_id") "LIST")
      self._options

def createCollection (pf : Platform) (h : Heap) (self : Service) (params : Val) : Run :=
  if !truthy params || !truthy (getProp h params "cluster_id") then
    missing h "cluster_id"
  else if !truthy (getProp h params "collection_name") then
    missing h "collection_name"
  else if !truthy (getProp h params "config_name") then
    missing h "config_name"
  else
    let createPath := adminCollectionsPath pf (getProp h params "cluster_id") "CREATE"
    let createPath := createPath ++ "&name=" ++ strOf pf (getProp h params "collection_name")
      ++ "&collection.configName=" ++ strOf pf (getProp h params "config_name")
    sendRequest h "GET" createPath self._options

def deleteCollection (pf : Platform) (h : Heap) (self : Service) (params : Val) : Run :=
  if !truthy params || !truthy (getProp h params "cluster_id") then
    missing h "cluster_id"
  else if !truthy (getProp h params "collection_name") then
    missing h "collection_name"
  else
    let deletePath := adminCollectionsPath pf (getProp h params "cluster_id") "DELETE"
      ++ "&name=" ++ strOf pf (getProp h params "collection_name")
    sendRequest h "GET" deletePath self._options

def createSolrClient (pf : Platform) (h : Heap) (self : Service) (params : Val) : Run :=
  if !truthy params || !truthy (getProp h params "cluster_id") then
    { heap := h, effects := [], threw := some "Missing required parameter: cluster_id" }
  else if !truthy (getProp h params "collection_name") then
    { heap := h, effects := [], threw := some "Missing required parameter: collection_name" }
  else
    match pf.urlParse (getProp h self._options "url") with
    | none => { heap := h, effects := [], threw := some "TypeError" }
    | some serviceUrl =>
      let apiPath : Val :=
        if serviceUrl.path = .str "/" then .str ""
        else if truthy serviceUrl.path then serviceUrl.path else .str ""
      let cfg : SolrConfig :=
        { host := serviceUrl.hostname,
          path := strOf pf apiPath ++ solrClusterPath pf (getProp h params "cluster_id") ++ "/solr",
          port := if truthy serviceUrl.port then serviceUrl.port else .str "443",
          secure := true,
          core := getProp h params "collection_name" }
      { heap := h,
        effects := [.createClient cfg,
                    .basicAuth (getProp h params "username") (getProp h params "password")],
        threw := none }

/-- The callback-taking operations with required parameters. -/
inductive Op
  | pollCluster
  | deleteCluster
  | listConfigs
  | uploadConfig
  | getConfig
  | deleteConfig
  | listCollections
  | createCollection
  | deleteCollection
deriving DecidableEq, Repr

def Op.call (pf : Platform) (h : Heap) (self : Service) (params : Val) : Op → Run
  | .pollCluster => RetrieveAndRankV1.pollCluster pf h self params
  | .deleteCluster => RetrieveAndRankV1.deleteCluster pf h self params
  | .listConfigs => RetrieveAndRankV1.listConfigs pf h self params
  | .uploadConfig => RetrieveAndRankV1.uploadConfig pf h self params
  | .getConfig => RetrieveAndRankV1.getConfig pf h self params
  | .deleteConfig => RetrieveAndRankV1.deleteConfig pf h self params
  | .listCollections => RetrieveAndRankV1.listCollections pf h self params
  | .createCollection => RetrieveAndRankV1.createCollection pf h self params
  | .deleteCollection => RetrieveAndRankV1.deleteCollection pf h self params

/-- The `Required params` of each operation's docstring, in documented order. -/
def Op.required : Op → List String
  | .pollCluster => ["cluster_id"]
  | .deleteCluster => ["cluster_id"]
  | .listConfigs => ["cluster_id"]
  | .uploadConfig => ["cluster_id", "config_name", "config_zip_path"]
  | .getConfig => ["cluster_id", "config_name"]
  | .deleteConfig => ["cluster_id", "config_name"]
  | .listCollections => ["cluster_id"]
  | .createCollection => ["cluster_id", "collection_name", "config_name"]
  | .deleteCollection => ["cluster_id", "collection_name"]

/-- The `Required params` of the docstring of `createSolrClient`. -/
def createSolrClientRequired : List String :=
  ["cluster_id", "collection_name", "username", "password"]

/-- The first of the names whose value in `params` is missing or empty (falsy). -/
def firstMissing (h : Heap) (params : Val) (names : List String) : Option String :=
  names.find? (fun k => !truthy (getProp h params k))

/-- A platform for examples: no file can be read. -/
def samplePlatform : Platform :=
  { toStr := fun _ => "[object Object]",
    stringify := fun _ _ => some (some "\x7b\x7d"),
    readFileSync := fun _ => none,
    urlParse := fun _ =>
      some { hostname := .str "gateway.watsonplatform.net",
             path := .str "/retrieve-and-rank/api", port := .null } }

/-- A platform for examples on which every file holds the bytes 80, 75. -/
def readablePlatform : Platform :=
  { samplePlatform with readFileSync := fun _ => some [80, 75] }

/-- The heap `g` keeps every object of `h0` as it was, and no object added
since refers to an object of `h0`. -/
structure Over (h0 g : Heap) : Prop where
  keeps : ∀ a, a < h0.length → g[a]? = h0[a]?
  closed : ∀ a o, h0.length ≤ a → g[a]? = some o →
    ∀ e ∈ o.props, ∀ b, e.2 = Val.ref b → h0.length ≤ b

/-- A value that is not a reference below `base`. -/
def FreshVal (base : Nat) (v : Val) : Prop :=
  ∀ b, v = .ref b → base ≤ b

/-- Every request among the effects of `r` carries, as its default options, an
object allocated after `h`, whose `headers` is not an object of `h` either. -/
def SentOnCopy (h : Heap) (r : Run) : Prop :=
  ∀ q, Effect.request q ∈ r.effects →
    ∃ a, q.defaultOptions = .ref a ∧ h.length ≤ a ∧
      FreshVal h.length (getProp r.heap (.ref a) "headers")

/-- A value read out of the heap to a given depth. -/
inductive Tree
  | leaf (v : Val)
  | node (isArray : Bool) (props : List (String × Tree))
  | cut

/-- The value `v` with the objects it reaches, read to depth `n`. -/
def snapshot : Nat → Heap → Val → Tree
  | 0, _, .ref _ => .cut
  | n + 1, h, .ref a =>
    match h[a]? with
    | none => .leaf .undefined
    | some o => .node o.isArray (o.props.map (fun e => (e.1, snapshot n h e.2)))
  | _, _, v => .leaf v

/-- Every reference stored in the heap names an object of the heap. -/
def wfHeap (h : Heap) : Bool :=
  h.all (fun o => o.props.all (fun e =>
    match e.2 with
    | .ref b => decide (b < h.length)
    | _ => true))

/-- Every reference stored in an object names an object at a lower address, so
the heap has no cycle. -/
def ranked (h : Heap) : Bool :=
  (List.range h.length).all (fun a =>
    match h[a]? with
    | none => true
    | some o => o.props.all (fun e =>
      match e.2 with
      | .ref b => decide (b < a)
      | _ => true))

/-- No `headers` entry of the object holds a primitive other than `undefined`:
each holds `undefined`, a function or an object. -/
def headersSettable (o : Obj) : Bool :=
  o.props.all (fun e =>
    e.1 != "headers" ||
      match e.2 with
      | .undefined => true
      | .func _ => true
      | .ref _ => true
      | _ => false)

/-- A heap holding, at address 1, the options object
`{username: 'u', headers: {'X-Watson': '1'}}` and, at address 0, its headers. -/
def optionsHeap : Heap :=
  [{ isArray := false, props := [("X-Watson", .str "1")] },
   { isArray := false, props := [("username", .str "u"), ("headers", .ref 0)] }]

/-- A heap holding, at address 0, the params object
`{cluster_id: 'c1', collection_name: 'docs'}`. -/
def solrParamsHeap : Heap :=
  [{ isArray := false,
     props := [("cluster_id", .str "c1"), ("collection_name", .str "docs")] }]

/-- A heap holding, at address 0, the params object
`{cluster_id: 'c1', config_name: 'cfg', config_zip_path: '/tmp/absent.zip'}`. -/
def uploadParamsHeap : Heap :=
  [{ isArray := false,
     props := [("cluster_id", .str "c1"), ("config_name", .str "cfg"),
               ("config_zip_path", .str "/tmp/absent.zip")] }]

end RetrieveAndRankV1
namespace TranscribeMic

theorem push_wav (p : Proc) (h : p.pipes = wiring) (o : Chunk) :
    p.push .wavStream o = { p with recIn := p.recIn ++ [o] } := by
  simp [Proc.push, Proc.dests, h, wiring, Proc.record]

theorem foldl_push_wav (os : List Chunk) :
    ∀ p : Proc, p.pipes = wiring →
      os.foldl (fun q o => q.push .wavStream o) p = { p with recIn := p.recIn ++ os } := by
  induction os with
  | nil => intro p _; simp
  | cons o os ih =>
    intro p h
    rw [List.foldl_cons, push_wav p h, ih _ (by simpa using h)]
    simp

theorem emit_frame (enc : Encoder) (p : Proc) (h : p.pipes = wiring) (f : Chunk) :
    p.emitData enc .micInputStream f =
      { p with wavIn := p.wavIn ++ [f], recIn := p.recIn ++ enc.onWrite f } := by
  have h2 : (p.record .wavStream f).pipes = wiring := by simp [Proc.record, h]
  have h3 : p.dests .micInputStream = [.wavStream] := by simp [Proc.dests, h, wiring]
  simp only [Proc.emitData, h3, List.foldl_cons, List.foldl_nil, Proc.write]
  rw [foldl_push_wav _ _ h2]
  simp [Proc.record]

theorem emit_result (enc : Encoder) (p : Proc) (h : p.pipes = wiring) (r : Chunk) :
    p.emitData enc .recognizeStream r = { p with fileIn := p.fileIn ++ [r] } := by
  simp [Proc.emitData, Proc.dests, h, wiring, Proc.write, Proc.record]

theorem topLevel_eq (enc : Encoder) (deviceOk : Bool) :
    topLevel enc deviceOk =
      { trace := scriptTrace, pipes := wiring, listeners := [stdinListener], exitCode := none,
        status := if deviceOk then .running else .uncaught "DeviceUnavailable",
        wavBuf := enc.onOpen, wavIn := [], recIn := [], fileIn := [],
        wavFinalized := false, sinkClosed := false,
        pendingOpens := ["./audio.wav", "./transcription.txt"], opened := [] } := by
  cases deviceOk <;> rfl

theorem boot_eq (enc : Encoder) :
    boot enc true =
      { trace := scriptTrace, pipes := wiring, listeners := [stdinListener], exitCode := none,
        status := .running, wavBuf := [], wavIn := [], recIn := enc.onOpen, fileIn := [],
        wavFinalized := false, sinkClosed := false,
        pendingOpens := ["./audio.wav", "./transcription.txt"], opened := [] } := by
  simp [boot, topLevel_eq, Proc.flush, foldl_push_wav]

theorem step_of_not_running (enc : Encoder) (p : Proc) (ev : Event)
    (h : p.status ≠ .running) : step enc p ev = p := by
  unfold step
  cases hs : p.status with
  | running => exact absurd hs h
  | exited c => rfl
  | uncaught e => rfl

theorem dispatch_error (p : Proc)
    (hl : p.listeners = [stdinListener] ∨ p.listeners = [endListener]) :
    p.dispatch .recognizeStream .error = { p with status := .uncaught "Unhandled error event" } := by
  rcases hl with hl | hl <;> simp [Proc.dispatch, hl, stdinListener, endListener]

theorem dispatch_stop (p : Proc) (hl : p.listeners = [stdinListener])
    (hs : p.status = .running) :
    p.dispatch .stdin .data =
      { p with listeners := [endListener], trace := p.trace ++ stopTrace } := by
  simp [Proc.dispatch, hl, stdinListener, runHandlers, runHandler, hs, Proc.act,
    Proc.addListener, stopTrace]

theorem dispatch_stop_again (p : Proc) (hl : p.listeners = [endListener]) :
    p.dispatch .stdin .data = p := by
  cases p
  simp_all [Proc.dispatch, endListener, runHandlers]

theorem dispatch_end_early (p : Proc) (hl : p.listeners = [stdinListener]) :
    p.dispatch .recognizeStream .ended = p := by
  cases p
  simp_all [Proc.dispatch, stdinListener, runHandlers]

theorem dispatch_end (p : Proc) (hl : p.listeners = [endListener])
    (hs : p.status = .running) :
    p.dispatch .recognizeStream .ended =
      { p with trace := p.trace ++ [.processExit none],
               status := .exited (p.exitCode.getD 0) } := by
  cases p
  simp_all [Proc.dispatch, endListener, runHandlers, runHandler, Proc.act, Proc.processExit]

theorem step_key (enc : Encoder) (p : Proc) (hs : p.status = .running) :
    step enc p .stdinData = p.dispatch .stdin .data := by
  unfold step
  rw [hs]

theorem step_end (enc : Encoder) (p : Proc) (hs : p.status = .running) :
    step enc p .recognizeEnd = p.dispatch .recognizeStream .ended := by
  unfold step
  rw [hs]

theorem step_inv (enc : Encoder) (p : Proc) (ev : Event) (h : Inv p) : Inv (step enc p ev) := by
  by_cases hs : p.status = .running
  · obtain ⟨hp, hx, hph⟩ := h
    have hl : p.listeners = [stdinListener] ∨ p.listeners = [endListener] := by
      rcases hph with h1 | h1 | h1
      · exact Or.inl h1.1
      · exact Or.inr h1.1
      · exact Or.inr h1.1
    cases ev with
    | frame f =>
      simp only [step, hs, emit_frame enc p hp]
      exact ⟨hp, hx, by simpa [hs] using hph⟩
    | result r =>
      simp only [step, hs, emit_result enc p hp]
      exact ⟨hp, hx, by simpa [hs] using hph⟩
    | wavFinalizeDone =>
      simp only [step, hs]
      exact ⟨hp, hx, by simpa [hs] using hph⟩
    | sinkCloseDone =>
      simp only [step, hs]
      exact ⟨hp, hx, by simpa [hs] using hph⟩
    | fileOpened path =>
      simp only [step, hs, Proc.completeOpen]
      split
      · exact ⟨hp, hx, by simpa [hs] using hph⟩
      · exact ⟨hp, hx, hph⟩
    | recognizeError =>
      simp only [step, hs, dispatch_error p hl]
      refine ⟨hp, hx, ?_⟩
      rcases hph with h1 | h1 | h1
      · exact Or.inl ⟨h1.1, h1.2.1, Or.inr rfl⟩
      · exact Or.inr (Or.inl ⟨h1.1, h1.2.1, Or.inr rfl⟩)
      · rw [h1.2.2] at hs; exact absurd hs (by simp)
    | stdinData =>
      rcases hph with h1 | h1 | h1
      · simp only [step, hs, dispatch_stop p h1.1 hs]
        exact ⟨hp, hx, Or.inr (Or.inl ⟨rfl, by simp [h1.2.1], Or.inl rfl⟩)⟩
      · simp only [step, hs, dispatch_stop_again p h1.1]
        exact ⟨hp, hx, Or.inr (Or.inl h1)⟩
      · rw [h1.2.2] at hs; exact absurd hs (by simp)
    | recognizeEnd =>
      rcases hph with h1 | h1 | h1
      · simp only [step, hs, dispatch_end_early p h1.1]
        exact ⟨hp, hx, Or.inl h1⟩
      · simp only [step, hs, dispatch_end p h1.1 hs]
        exact ⟨hp, hx, Or.inr (Or.inr ⟨h1.1, by simp [h1.2.1], by simp [hx]⟩)⟩
      · rw [h1.2.2] at hs; exact absurd hs (by simp)
  · rw [step_of_not_running enc p ev hs]; exact h

theorem boot_inv (enc : Encoder) : Inv (boot enc true) := by
  rw [boot_eq]
  exact ⟨rfl, rfl, Or.inl ⟨rfl, rfl, Or.inl rfl⟩⟩

theorem runFrom_inv (enc : Encoder) (es : List Event) :
    ∀ p, Inv p → Inv (runFrom enc p es) := by
  induction es with
  | nil => intro p h; exact h
  | cons e es ih => intro p h; exact ih _ (step_inv enc p e h)

theorem run_inv (enc : Encoder) (es : List Event) : Inv (run enc es) :=
  runFrom_inv enc es _ (boot_inv enc)

theorem run_snoc (enc : Encoder) (es : List Event) (e : Event) :
    run enc (es ++ [e]) = step enc (run enc es) e := by
  simp [run, runFrom, List.foldl_append]

theorem running_of_step (enc : Encoder) (p : Proc) (ev : Event)
    (h : (step enc p ev).status = .running) : p.status = .running := by
  by_contra hs
  rw [step_of_not_running enc p ev hs] at h
  exact hs h

theorem runFrom_append (enc : Encoder) (p : Proc) (a b : List Event) :
    runFrom enc p (a ++ b) = runFrom enc (runFrom enc p a) b := by
  simp [runFrom, List.foldl_append]

theorem framesOf_append (a b : List Event) : framesOf (a ++ b) = framesOf a ++ framesOf b := by
  induction a with
  | nil => rfl
  | cons e a ih => cases e <;> simp [framesOf, ih]

theorem resultsOf_append (a b : List Event) :
    resultsOf (a ++ b) = resultsOf a ++ resultsOf b := by
  induction a with
  | nil => rfl
  | cons e a ih => cases e <;> simp [resultsOf, ih]

/-- While the process runs, each stream has received exactly what its upstream
produced. -/
theorem run_data (enc : Encoder) (es : List Event) :
    (run enc es).status = .running →
      (run enc es).wavIn = framesOf es ∧
      (run enc es).recIn = enc.onOpen ++ (framesOf es).flatMap enc.onWrite ∧
      (run enc es).fileIn = resultsOf es := by
  induction es using List.reverseRecOn with
  | nil =>
    intro _
    simp [run, runFrom, boot_eq, framesOf, resultsOf]
  | append_singleton es e ih =>
    intro h
    rw [run_snoc] at h ⊢
    have hs := running_of_step enc _ e h
    obtain ⟨h1, h2, h3⟩ := ih hs
    have hp := (run_inv enc es).pipes
    have hl : (run enc es).listeners = [stdinListener] ∨ (run enc es).listeners = [endListener] := by
      rcases (run_inv enc es).phase with q | q | q
      · exact Or.inl q.1
      · exact Or.inr q.1
      · exact Or.inr q.1
    rw [framesOf_append, resultsOf_append]
    cases e with
    | frame f =>
      simp only [step, hs, emit_frame enc _ hp]
      simp [h1, h2, h3, framesOf, resultsOf]
    | result r =>
      simp only [step, hs, emit_result enc _ hp]
      simp [h1, h2, h3, framesOf, resultsOf]
    | wavFinalizeDone =>
      simp only [step, hs]
      simp [h1, h2, h3, framesOf, resultsOf]
    | sinkCloseDone =>
      simp only [step, hs]
      simp [h1, h2, h3, framesOf, resultsOf]
    | fileOpened path =>
      simp only [step, hs, Proc.completeOpen]
      split <;> simp [h1, h2, h3, framesOf, resultsOf]
    | recognizeError =>
      simp only [step, hs, dispatch_error _ hl] at h
      simp at h
    | stdinData =>
      rcases hl with q | q
      · simp only [step, hs, dispatch_stop _ q hs]
        simp [h1, h2, h3, framesOf, resultsOf]
      · simp only [step, hs, dispatch_stop_again _ q]
        simp [h1, h2, h3, framesOf, resultsOf]
    | recognizeEnd =>
      rcases hl with q | q
      · simp only [step, hs, dispatch_end_early _ q]
        simp [h1, h2, h3, framesOf, resultsOf]
      · simp only [step, hs, dispatch_end _ q hs] at h
        simp at h

end TranscribeMic
namespace TranscribeMic

/-- What a benign event leaves unchanged. -/
theorem step_benign (enc : Encoder) (p : Proc) (e : Event) (hp : p.pipes = wiring)
    (he : e.benign = true) :
    (step enc p e).trace = p.trace ∧ (step enc p e).listeners = p.listeners ∧
      (step enc p e).status = p.status ∧ (step enc p e).pipes = p.pipes ∧
      (step enc p e).exitCode = p.exitCode := by
  by_cases hs : p.status = .running
  · cases e with
    | frame f => simp [step, hs, emit_frame enc p hp]
    | result r => simp [step, hs, emit_result enc p hp]
    | wavFinalizeDone => simp [step, hs]
    | sinkCloseDone => simp [step, hs]
    | fileOpened path =>
      simp only [step, hs, Proc.completeOpen]
      split <;> simp [hs]
    | stdinData => simp [Event.benign] at he
    | recognizeEnd => simp [Event.benign] at he
    | recognizeError => simp [Event.benign] at he
  · rw [step_of_not_running enc p e hs]
    simp

theorem runFrom_benign (enc : Encoder) (es : List Event) :
    ∀ p : Proc, p.pipes = wiring → (∀ e ∈ es, e.benign = true) →
      (runFrom enc p es).trace = p.trace ∧ (runFrom enc p es).listeners = p.listeners ∧
      (runFrom enc p es).status = p.status ∧ (runFrom enc p es).pipes = p.pipes ∧
      (runFrom enc p es).exitCode = p.exitCode := by
  induction es with
  | nil => intro p _ _; simp [runFrom]
  | cons e es ih =>
    intro p hp hb
    obtain ⟨h1, h2, h3, h4, h5⟩ :=
      step_benign enc p e hp (hb e (List.mem_cons_self _ _))
    obtain ⟨k1, k2, k3, k4, k5⟩ :=
      ih (step enc p e) (h4.trans hp) (fun x hx => hb x (List.mem_cons_of_mem _ hx))
    show (runFrom enc (step enc p e) es).trace = p.trace ∧ _
    exact ⟨k1.trans h1, k2.trans h2, k3.trans h3, k4.trans h4, k5.trans h5⟩

/-- Soundness of the boolean scan `stopBeforeExit`. -/
theorem stopBeforeExit_sound (t : List Action) (h : stopBeforeExit t = true) :
    ∀ (pre post : List Action) (c : Option Nat),
      t = pre ++ .processExit c :: post → .micStop ∈ pre := by
  induction t with
  | nil => intro pre post c he; simp at he
  | cons a t ih =>
    intro pre post c he
    cases pre with
    | nil =>
      simp only [List.nil_append, List.cons.injEq] at he
      rw [he.1] at h
      simp [stopBeforeExit] at h
    | cons b pre =>
      simp only [List.cons_append, List.cons.injEq] at he
      obtain ⟨hab, ht⟩ := he
      subst hab
      by_cases hm : a = .micStop
      · simp [hm]
      · have h2 : stopBeforeExit t = true := by
          cases a <;> simp_all [stopBeforeExit]
        exact List.mem_cons_of_mem _ (ih h2 pre post c ht)

/-- Once the key press has been seen, the process is over or only the `end`
listener is left. -/
theorem stopped_after_key (enc : Encoder) (es : List Event) :
    .stdinData ∈ es →
      (run enc es).status ≠ .running ∨ (run enc es).listeners = [endListener] := by
  induction es using List.reverseRecOn with
  | nil => intro h; simp at h
  | append_singleton es e ih =>
    intro hm
    rw [run_snoc]
    by_cases hs : (run enc es).status = .running
    · have hinv := run_inv enc es
      have hp := hinv.pipes
      have hl : (run enc es).listeners = [stdinListener] ∨
          (run enc es).listeners = [endListener] := by
        rcases hinv.phase with q | q | q
        · exact Or.inl q.1
        · exact Or.inr q.1
        · exact Or.inr q.1
      have hprev : e ≠ .stdinData → (run enc es).listeners = [endListener] := by
        intro hne
        have : Event.stdinData ∈ es := by
          rcases List.mem_append.mp hm with h | h
          · exact h
          · simp at h; exact absurd h.symm hne
        rcases ih this with h | h
        · exact absurd hs h
        · exact h
      cases e with
      | frame f =>
        right; simp only [step, hs, emit_frame enc _ hp]; exact hprev (by simp)
      | result r =>
        right; simp only [step, hs, emit_result enc _ hp]; exact hprev (by simp)
      | wavFinalizeDone => right; simp only [step, hs]; exact hprev (by simp)
      | sinkCloseDone => right; simp only [step, hs]; exact hprev (by simp)
      | fileOpened path =>
        right
        simp only [step, hs, Proc.completeOpen]
        split
        · exact hprev (by simp)
        · exact hprev (by simp)
      | recognizeError =>
        left; simp only [step, hs, dispatch_error _ hl]; simp
      | recognizeEnd =>
        left
        simp only [step, hs, dispatch_end _ (hprev (by simp)) hs]; simp
      | stdinData =>
        right
        rcases hl with q | q
        · simp only [step, hs, dispatch_stop _ q hs]
        · simp only [step, hs, dispatch_stop_again _ q]; exact q
    · left
      rw [step_of_not_running enc _ e hs]
      exact hs

/-- The shape of a clean shutdown: benign events, the stop key, benign events,
the end of the recognition stream. -/
theorem shutdown_run (enc : Encoder) (pre mid : List Event)
    (hb : ∀ e ∈ pre ++ mid, e.benign = true) :
    (run enc pre).trace = scriptTrace ∧
    run enc (pre ++ [.stdinData]) =
      { run enc pre with listeners := [endListener],
                         trace := (run enc pre).trace ++ stopTrace } ∧
    run enc (pre ++ [.stdinData] ++ mid) =
      runFrom enc (run enc (pre ++ [.stdinData])) mid ∧
    (run enc (pre ++ [.stdinData] ++ mid)).trace = (run enc (pre ++ [.stdinData])).trace ∧
    run enc (pre ++ [.stdinData] ++ mid ++ [.recognizeEnd]) =
      { run enc (pre ++ [.stdinData] ++ mid) with
          trace := (run enc (pre ++ [.stdinData] ++ mid)).trace ++ [.processExit none],
          status := .exited 0 } := by
  have hboot := boot_eq enc
  have hbp : (boot enc true).pipes = wiring := (boot_inv enc).pipes
  obtain ⟨a1, a2, a3, _, _⟩ := runFrom_benign enc pre (boot enc true) hbp
    (fun e he => hb e (List.mem_append_left _ he))
  have ht1 : (run enc pre).trace = scriptTrace := by
    show (runFrom enc (boot enc true) pre).trace = _
    rw [a1, hboot]
  have hl1 : (run enc pre).listeners = [stdinListener] := by
    show (runFrom enc (boot enc true) pre).listeners = _
    rw [a2, hboot]
  have hs1 : (run enc pre).status = .running := by
    show (runFrom enc (boot enc true) pre).status = _
    rw [a3, hboot]
  have hstop : run enc (pre ++ [.stdinData]) =
      { run enc pre with listeners := [endListener],
                         trace := (run enc pre).trace ++ stopTrace } := by
    rw [run_snoc, step_key enc _ hs1, dispatch_stop _ hl1 hs1]
  have hp2 : (run enc (pre ++ [.stdinData])).pipes = wiring := (run_inv enc _).pipes
  obtain ⟨b1, b2, b3, _, _⟩ := runFrom_benign enc mid (run enc (pre ++ [.stdinData])) hp2
    (fun e he => hb e (List.mem_append_right _ he))
  have hmid : run enc (pre ++ [.stdinData] ++ mid) =
      runFrom enc (run enc (pre ++ [.stdinData])) mid := by
    show runFrom enc (boot enc true) (pre ++ [.stdinData] ++ mid) =
      runFrom enc (runFrom enc (boot enc true) (pre ++ [.stdinData])) mid
    rw [runFrom_append]
  have hl3 : (run enc (pre ++ [.stdinData] ++ mid)).listeners = [endListener] := by
    rw [hmid, b2, hstop]
  have hs3 : (run enc (pre ++ [.stdinData] ++ mid)).status = .running := by
    rw [hmid, b3, hstop]; exact hs1
  have hx3 : (run enc (pre ++ [.stdinData] ++ mid)).exitCode = none :=
    (run_inv enc _).exitCode
  refine ⟨ht1, hstop, hmid, ?_, ?_⟩
  · rw [hmid, b1]
  · have hx : (run enc (pre ++ [.stdinData] ++ mid)).exitCode.getD 0 = 0 := by
      rw [hx3]; rfl
    rw [run_snoc, step_end enc _ hs3, dispatch_end _ hl3 hs3, hx]

/-- Audio frames and recognition results leave the two completion flags as they
were. -/
theorem runFrom_data_flags (enc : Encoder) (es : List Event) :
    ∀ p : Proc, p.pipes = wiring →
      (∀ e ∈ es, (∃ f, e = .frame f) ∨ ∃ r, e = .result r) →
      (runFrom enc p es).wavFinalized = p.wavFinalized ∧
      (runFrom enc p es).sinkClosed = p.sinkClosed := by
  induction es with
  | nil => intro p _ _; exact ⟨rfl, rfl⟩
  | cons e es ih =>
    intro p hp hd
    have hstep : (step enc p e).wavFinalized = p.wavFinalized ∧
        (step enc p e).sinkClosed = p.sinkClosed ∧ (step enc p e).pipes = wiring := by
      by_cases hs : p.status = .running
      · rcases hd e (List.mem_cons_self _ _) with ⟨f, rfl⟩ | ⟨r, rfl⟩
        · simp [step, hs, emit_frame enc p hp, hp]
        · simp [step, hs, emit_result enc p hp, hp]
      · rw [step_of_not_running enc p e hs]
        exact ⟨rfl, rfl, hp⟩
    obtain ⟨q1, q2⟩ := ih (step enc p e) hstep.2.2
      (fun x hx => hd x (List.mem_cons_of_mem _ hx))
    show (runFrom enc (step enc p e) es).wavFinalized = _ ∧ _
    exact ⟨q1.trans hstep.1, q2.trans hstep.2.1⟩

/-- Claim C1, evaluated on the code: whatever frames were captured before the
stop key and whatever results arrived after it, once the recognition stream ends
the script has called `process.exit` and the process is over, although neither
the container finalize nor the close of the transcript sink has completed. -/
theorem exit_precedes_finalize_and_close (enc : Encoder) (frames results : List Chunk) :
    (run enc (frames.map .frame ++ [.stdinData] ++ results.map .result ++
      [.recognizeEnd])).status = .exited 0 ∧
    (run enc (frames.map .frame ++ [.stdinData] ++ results.map .result ++
      [.recognizeEnd])).trace = scriptTrace ++ stopTrace ++ [.processExit none] ∧
    (run enc (frames.map .frame ++ [.stdinData] ++ results.map .result ++
      [.recognizeEnd])).wavFinalized = false ∧
    (run enc (frames.map .frame ++ [.stdinData] ++ results.map .result ++
      [.recognizeEnd])).sinkClosed = false := by
  have hb : ∀ e ∈ frames.map Event.frame ++ results.map Event.result, e.benign = true := by
    intro e he
    rcases List.mem_append.mp he with h | h
    · obtain ⟨f, _, rfl⟩ := List.mem_map.mp h; rfl
    · obtain ⟨r, _, rfl⟩ := List.mem_map.mp h; rfl
  obtain ⟨s1, s2, s3, s4, s5⟩ := shutdown_run enc (frames.map .frame) (results.map .result) hb
  obtain ⟨f1, f2⟩ := runFrom_data_flags enc (frames.map .frame) (boot enc true)
    (boot_inv enc).pipes
    (fun e he => by obtain ⟨f, _, rfl⟩ := List.mem_map.mp he; exact Or.inl ⟨f, rfl⟩)
  obtain ⟨g1, g2⟩ := runFrom_data_flags enc (results.map .result)
    (run enc (frames.map .frame ++ [.stdinData])) (run_inv enc _).pipes
    (fun e he => by obtain ⟨r, _, rfl⟩ := List.mem_map.mp he; exact Or.inr ⟨r, rfl⟩)
  have hw0 : (run enc (frames.map .frame)).wavFinalized = false := by
    show (runFrom enc (boot enc true) _).wavFinalized = _
    rw [f1, boot_eq]
  have hc0 : (run enc (frames.map .frame)).sinkClosed = false := by
    show (runFrom enc (boot enc true) _).sinkClosed = _
    rw [f2, boot_eq]
  rw [s5]
  refine ⟨rfl, ?_, ?_, ?_⟩
  · show (run enc (frames.map .frame ++ [.stdinData] ++ results.map .result)).trace ++ _ = _
    rw [s4, s2]
    show ((run enc (frames.map .frame)).trace ++ stopTrace) ++ _ = _
    rw [s1]
  · show (run enc (frames.map .frame ++ [.stdinData] ++ results.map .result)).wavFinalized = _
    rw [s3, g1, s2]
    exact hw0
  · show (run enc (frames.map .frame ++ [.stdinData] ++ results.map .result)).sinkClosed = _
    rw [s3, g2, s2]
    exact hc0

/-- Claim C2 as stated fails: with the `wav.Writer` encoder and one frame, the
recognition stream receives the header chunk and then the frame, which is not
the sequence the microphone produced, and `recognizeStream` is not among the pipe
destinations of `micInputStream`. -/
theorem recognizer_fed_by_encoder_not_source :
    (run (wavWriter [82, 73, 70, 70]) [.frame [1, 2]]).recIn = [[82, 73, 70, 70], [1, 2]] ∧
    (run (wavWriter [82, 73, 70, 70]) [.frame [1, 2]]).recIn ≠ framesOf [.frame [1, 2]] ∧
    Stream.recognizeStream ∉
      (run (wavWriter [82, 73, 70, 70]) [.frame [1, 2]]).dests .micInputStream := by
  decide

/-- Claim C2, amended: while the process runs, `micInputStream` is piped to
`wavStream` only and `wavStream` to `recognizeStream`; the encoder has received
exactly the frames produced, in order, and the recognition stream has received
exactly the encoder's output for them, in order. -/
theorem encoder_chain_delivery (enc : Encoder) (es : List Event)
    (h : (run enc es).status = .running) :
    (run enc es).dests .micInputStream = [.wavStream] ∧
    (run enc es).dests .wavStream = [.recognizeStream] ∧
    (run enc es).wavIn = framesOf es ∧
    (run enc es).recIn = enc.onOpen ++ (framesOf es).flatMap enc.onWrite := by
  have hp := (run_inv enc es).pipes
  obtain ⟨h1, h2, _⟩ := run_data enc es h
  refine ⟨?_, ?_, h1, h2⟩
  · simp [Proc.dests, hp, wiring]
  · simp [Proc.dests, hp, wiring]

/-- An instance of the above: two frames and one result, header `[82]`. -/
theorem encoder_chain_delivery_witness :
    (run (wavWriter [82]) [.frame [1], .result [7], .frame [2]]).status = .running ∧
    (run (wavWriter [82]) [.frame [1], .result [7], .frame [2]]).wavIn = [[1], [2]] ∧
    (run (wavWriter [82]) [.frame [1], .result [7], .frame [2]]).recIn = [[82], [1], [2]] :=
  ⟨by decide,
   (encoder_chain_delivery (wavWriter [82]) [.frame [1], .result [7], .frame [2]]
      (by decide)).2.2.1,
   (encoder_chain_delivery (wavWriter [82]) [.frame [1], .result [7], .frame [2]]
      (by decide)).2.2.2⟩

/-- Claim C3: `micInstance.start()` is invoked in the state `untilStart`, in which
both write streams have been constructed and have asked for their files, but
neither `./audio.wav` nor `./transcription.txt` has been opened. A start that
throws ends the process there, and whatever events follow, no file is ever
opened. A start that returns lets the event loop deliver the two opens, which is
when the files are opened. -/
theorem no_file_opened_when_start_invoked (enc : Encoder) :
    (∀ deviceOk, topLevel enc deviceOk = (untilStart enc).micStart deviceOk) ∧
    (untilStart enc).opened = [] ∧
    (untilStart enc).pendingOpens = ["./audio.wav", "./transcription.txt"] ∧
    (untilStart enc).status = .running ∧
    (boot enc false).status = .uncaught "DeviceUnavailable" ∧
    (∀ es, (runFrom enc (boot enc false) es).opened = []) ∧
    (run enc [.fileOpened "./audio.wav", .fileOpened "./transcription.txt"]).opened =
      ["./audio.wav", "./transcription.txt"] := by
  have hb : boot enc false = topLevel enc false := by
    simp [boot, topLevel_eq, Proc.flush]
  refine ⟨fun _ => rfl, rfl, rfl, rfl, ?_, ?_, ?_⟩
  · rw [hb, topLevel_eq]; rfl
  · intro es
    have hdead : ∀ (l : List Event) (p : Proc), p.status ≠ .running → runFrom enc p l = p := by
      intro l
      induction l with
      | nil => intro p _; rfl
      | cons e l ih =>
        intro p hp
        show runFrom enc (step enc p e) l = p
        rw [step_of_not_running enc p e hp]
        exact ih p hp
    rw [hdead es (boot enc false) (by rw [hb, topLevel_eq]; simp), hb, topLevel_eq]
  · simp [run, runFrom, boot_eq, step, Proc.completeOpen]

/-- Claim C4 as stated fails: when the recognition stream emits an error during
recording, no `error` listener exists, the error ends the process uncaught, and
the script has neither stopped the microphone nor called `process.exit`. -/
theorem channel_error_is_uncaught :
    errorListeners (run (wavWriter [82]) [.frame [1]]) = [] ∧
    (run (wavWriter [82]) [.frame [1], .recognizeError]).status =
      .uncaught "Unhandled error event" ∧
    Action.micStop ∉ (run (wavWriter [82]) [.frame [1], .recognizeError]).trace ∧
    (run (wavWriter [82]) [.frame [1], .recognizeError]).trace = scriptTrace := by
  decide

/-- Claim C4, amended: in every reachable state no `error` listener is
registered on `recognizeStream`; an error emitted while the process runs is
therefore thrown uncaught, and that is the only change: the script makes no call
in response (no `micInstance.stop()`, no `process.exit`). -/
theorem channel_error_runs_no_handler (enc : Encoder) (es : List Event) :
    errorListeners (run enc es) = [] ∧
    ((run enc es).status = .running →
      step enc (run enc es) .recognizeError =
        { run enc es with status := .uncaught "Unhandled error event" }) := by
  have hl : (run enc es).listeners = [stdinListener] ∨
      (run enc es).listeners = [endListener] := by
    rcases (run_inv enc es).phase with q | q | q
    · exact Or.inl q.1
    · exact Or.inr q.1
    · exact Or.inr q.1
  constructor
  · rcases hl with q | q <;> simp [errorListeners, q, stdinListener, endListener]
  · intro hs
    simp only [step, hs, dispatch_error _ hl]

/-- An instance of the above: an error after the stop key adds no call to the
trace. -/
theorem channel_error_runs_no_handler_witness :
    (run (wavWriter [82]) [.frame [1], .stdinData]).status = .running ∧
    (step (wavWriter [82]) (run (wavWriter [82]) [.frame [1], .stdinData])
      .recognizeError).trace = scriptTrace ++ stopTrace :=
  ⟨by decide,
   by
    rw [(channel_error_runs_no_handler (wavWriter [82]) [.frame [1], .stdinData]).2
      (by decide)]
    decide⟩

/-- Claim C5: on a clean shutdown (benign events, the stop key, benign events,
then the end of the recognition stream) the stop key makes the script print
`Cleaning up and exiting...` first among its calls, and the end of the stream
makes it call `process.exit()`, which ends the process with status 0; and in
every run, each `process.exit` in the trace has `micInstance.stop()` before it. -/
theorem clean_shutdown_exits_zero (enc : Encoder) :
    (∀ pre mid : List Event, (∀ e ∈ pre ++ mid, e.benign = true) →
      (run enc (pre ++ [.stdinData])).trace =
        (run enc pre).trace ++
          [.log "Cleaning up and exiting...", .setRawMode false, .micStop,
           .addListener endListener] ∧
      (run enc (pre ++ [.stdinData] ++ mid ++ [.recognizeEnd])).trace =
        (run enc (pre ++ [.stdinData])).trace ++ [.processExit none] ∧
      (run enc (pre ++ [.stdinData] ++ mid ++ [.recognizeEnd])).status = .exited 0) ∧
    (∀ (es : List Event) (before after : List Action) (c : Option Nat),
      (run enc es).trace = before ++ .processExit c :: after → .micStop ∈ before) := by
  constructor
  · intro pre mid hb
    obtain ⟨_, s2, _, s4, s5⟩ := shutdown_run enc pre mid hb
    refine ⟨?_, ?_, ?_⟩
    · rw [s2]; rfl
    · rw [s5]
      show (run enc (pre ++ [.stdinData] ++ mid)).trace ++ _ = _
      rw [s4]
    · rw [s5]
  · intro es before after c he
    refine stopBeforeExit_sound (run enc es).trace ?_ before after c he
    rcases (run_inv enc es).phase with q | q | q
    · rw [q.2.1]; decide
    · rw [q.2.1]; decide
    · rw [q.2.1]; decide

/-- An instance of the above: a clean shutdown with data before and after the
stop key. -/
theorem clean_shutdown_exits_zero_witness :
    (∀ e ∈ [Event.frame [1], .result [9]] ++ [Event.frame [2], .sinkCloseDone],
        e.benign = true) ∧
    (run (wavWriter [82])
      ([.frame [1], .result [9]] ++ [.stdinData] ++ [.frame [2], .sinkCloseDone] ++
        [.recognizeEnd])).status = .exited 0 :=
  ⟨by decide,
   ((clean_shutdown_exits_zero (wavWriter [82])).1 [.frame [1], .result [9]]
      [.frame [2], .sinkCloseDone] (by decide)).2.2⟩

/-- Claim C6: the stop signal is one-shot. In every run the status message, the
call `micInstance.stop()` and the registration of the `end` listener on
`recognizeStream` each occur at most once in the trace, and once a key press has
been delivered a further key press leaves the state unchanged. -/
theorem stop_signal_one_shot (enc : Encoder) (es : List Event) :
    (run enc es).trace.count (.log "Cleaning up and exiting...") ≤ 1 ∧
    (run enc es).trace.count .micStop ≤ 1 ∧
    (run enc es).trace.count (.addListener endListener) ≤ 1 ∧
    (.stdinData ∈ es → step enc (run enc es) .stdinData = run enc es) := by
  refine ⟨?_, ?_, ?_, ?_⟩
  · rcases (run_inv enc es).phase with q | q | q <;> rw [q.2.1] <;> decide
  · rcases (run_inv enc es).phase with q | q | q <;> rw [q.2.1] <;> decide
  · rcases (run_inv enc es).phase with q | q | q <;> rw [q.2.1] <;> decide
  · intro hm
    rcases stopped_after_key enc es hm with h | h
    · exact step_of_not_running enc _ _ h
    · by_cases hs : (run enc es).status = .running
      · simp only [step, hs]
        exact dispatch_stop_again _ h
      · exact step_of_not_running enc _ _ hs

/-- An instance of the above: a second key press after the first. -/
theorem stop_signal_one_shot_witness :
    Event.stdinData ∈ [Event.frame [1], .stdinData, .frame [2]] ∧
    step (wavWriter [82]) (run (wavWriter [82]) [.frame [1], .stdinData, .frame [2]])
      .stdinData = run (wavWriter [82]) [.frame [1], .stdinData, .frame [2]] :=
  ⟨by decide,
   (stop_signal_one_shot (wavWriter [82]) [.frame [1], .stdinData, .frame [2]]).2.2.2
     (by decide)⟩

end TranscribeMic
namespace RetrieveAndRankV1

theorem getProp_of_falsy (h : Heap) (params : Val) (k : String)
    (hp : truthy params = false) : getProp h params k = .undefined := by
  cases params <;> simp_all [truthy, getProp]

theorem truthy_of_prop (h : Heap) (params : Val) (k : String)
    (hk : truthy (getProp h params k) = true) : truthy params = true := by
  by_contra hp
  rw [getProp_of_falsy h params k (by simpa using hp)] at hk
  simp [truthy] at hk

theorem Over.refl (h0 : Heap) : Over h0 h0 :=
  ⟨fun _ _ => rfl, fun a o ha ho => by
    rw [List.getElem?_eq_none ha] at ho
    exact absurd ho (by simp)⟩

theorem Over.length_le {h0 g : Heap} (hg : Over h0 g) : h0.length ≤ g.length := by
  by_contra hlt
  have hlt : g.length < h0.length := Nat.lt_of_not_le hlt
  have h1 := hg.keeps g.length hlt
  rw [List.getElem?_eq_none (Nat.le_refl _)] at h1
  have h2 : h0.length ≤ g.length := List.getElem?_eq_none_iff.mp h1.symm
  omega

theorem Over.alloc {h0 g : Heap} (hg : Over h0 g) (o : Obj)
    (ho : ∀ e ∈ o.props, FreshVal h0.length e.2) : Over h0 (g ++ [o]) := by
  have hlen := hg.length_le
  constructor
  · intro a ha
    rw [List.getElem?_append_left (by omega)]
    exact hg.keeps a ha
  · intro a o1 ha ho1 e he b hb
    by_cases hlt : a < g.length
    · rw [List.getElem?_append_left hlt] at ho1
      exact hg.closed a o1 ha ho1 e he b hb
    · have hge : g.length ≤ a := Nat.le_of_not_lt hlt
      rw [List.getElem?_append_right hge] at ho1
      have hz : a - g.length = 0 := by
        by_contra hnz
        have : ([o] : List Obj)[a - g.length]? = none :=
          List.getElem?_eq_none (by simp; omega)
        rw [this] at ho1
        exact absurd ho1 (by simp)
      rw [hz] at ho1
      simp at ho1
      subst ho1
      exact ho e he b hb

theorem mem_assign (o : Obj) (k : String) (v : Val) (e : String × Val)
    (he : e ∈ (o.assign k v).props) : e ∈ o.props ∨ e = (k, v) := by
  unfold Obj.assign at he
  split at he
  · simp only [List.mem_map] at he
    obtain ⟨x, hx, hxe⟩ := he
    split at hxe
    · exact Or.inr hxe.symm
    · exact Or.inl (hxe ▸ hx)
  · simp only [List.mem_append, List.mem_singleton] at he
    exact he

theorem Over.setProp {h0 g g1 : Heap} (hg : Over h0 g) (t : Val) (k : String) (v : Val)
    (hs : setProp g t k v = some g1) (ht : FreshVal h0.length t) (hv : FreshVal h0.length v) :
    Over h0 g1 := by
  cases t with
  | ref a =>
    have hta : h0.length ≤ a := ht a rfl
    simp only [RetrieveAndRankV1.setProp] at hs
    cases hga : g[a]? with
    | none => rw [hga] at hs; exact absurd hs (by simp)
    | some o =>
      rw [hga] at hs
      simp only [Option.some.injEq] at hs
      subst hs
      constructor
      · intro c hc
        rw [List.getElem?_set_ne (by omega)]
        exact hg.keeps c hc
      · intro c o1 hc ho1 e he b hb
        by_cases hca : a = c
        · subst hca
          rw [List.getElem?_set] at ho1
          simp only [if_true] at ho1
          split at ho1
          · simp only [Option.some.injEq] at ho1
            subst ho1
            rcases mem_assign o k v e he with h1 | h1
            · exact hg.closed a o hc hga e h1 b hb
            · subst h1
              exact hv b hb
          · exact absurd ho1 (by simp)
        · rw [List.getElem?_set_ne hca] at ho1
          exact hg.closed c o1 hc ho1 e he b hb
  | undefined => simp [RetrieveAndRankV1.setProp] at hs
  | null => simp [RetrieveAndRankV1.setProp] at hs
  | bool _ => simp [RetrieveAndRankV1.setProp] at hs
  | num _ => simp [RetrieveAndRankV1.setProp] at hs
  | nan => simp [RetrieveAndRankV1.setProp] at hs
  | str _ => simp [RetrieveAndRankV1.setProp] at hs
  | func _ => simp [RetrieveAndRankV1.setProp] at hs

theorem lookup_mem (l : List (String × Val)) (k : String) (w : Val)
    (hl : l.lookup k = some w) : (k, w) ∈ l := by
  induction l with
  | nil => simp [List.lookup] at hl
  | cons x xs ih =>
    rcases x with ⟨k1, w1⟩
    by_cases hk : k = k1
    · subst hk
      simp [List.lookup] at hl
      subst hl
      exact List.mem_cons_self _ _
    · have hne : (k == k1) = false := by simpa using hk
      simp only [List.lookup, hne] at hl
      exact List.mem_cons_of_mem _ (ih hl)

theorem Over.getProp_fresh {h0 g : Heap} (hg : Over h0 g) (t : Val) (k : String)
    (ht : FreshVal h0.length t) : FreshVal h0.length (getProp g t k) := by
  intro b hb
  cases t with
  | ref a =>
    simp only [getProp] at hb
    cases hga : g[a]? with
    | none => rw [hga] at hb; simp at hb
    | some o =>
      rw [hga] at hb
      simp only at hb
      cases hl : o.props.lookup k with
      | none => rw [hl] at hb; simp at hb
      | some w =>
        rw [hl] at hb
        simp only [Option.getD_some] at hb
        have hmem : (k, w) ∈ o.props := lookup_mem o.props k w hl
        exact hg.closed a o (ht a rfl) hga (k, w) hmem b hb
  | undefined => simp [getProp] at hb
  | null => simp [getProp] at hb
  | bool _ => simp [getProp] at hb
  | num _ => simp [getProp] at hb
  | nan => simp [getProp] at hb
  | str _ => simp [getProp] at hb
  | func _ => simp [getProp] at hb

theorem copyProps_cons_copy (f : Heap → Val → Option (Heap × Val)) (isArray : Bool)
    (h : Heap) (k : String) (v : Val) (rest : List (String × Val))
    (hu : v ≠ .undefined) (hf : ∀ i, v ≠ .func i) :
    copyProps f isArray h ((k, v) :: rest) =
      match f h v with
      | none => none
      | some (h1, v1) => (copyProps f isArray h1 rest).map (fun r => (r.1, (k, v1) :: r.2)) := by
  cases v with
  | undefined => exact absurd rfl hu
  | func i => exact absurd rfl (hf i)
  | null => rfl
  | bool _ => rfl
  | num _ => rfl
  | nan => rfl
  | str _ => rfl
  | ref _ => rfl

theorem copyProps_cons_skip (f : Heap → Val → Option (Heap × Val)) (isArray : Bool)
    (h : Heap) (k : String) (v : Val) (rest : List (String × Val))
    (hv : v = .undefined ∨ ∃ i, v = .func i) :
    copyProps f isArray h ((k, v) :: rest) =
      if isArray then (copyProps f isArray h rest).map (fun r => (r.1, (k, .null) :: r.2))
      else copyProps f isArray h rest := by
  rcases hv with hv | ⟨i, hv⟩ <;> subst hv <;> rfl

theorem copyProps_over (h0 : Heap) (f : Heap → Val → Option (Heap × Val))
    (hf : ∀ g v g1 v1, Over h0 g → f g v = some (g1, v1) →
      Over h0 g1 ∧ FreshVal h0.length v1)
    (isArray : Bool) :
    ∀ (ps : List (String × Val)) (g g1 : Heap) (ps1 : List (String × Val)),
      Over h0 g → copyProps f isArray g ps = some (g1, ps1) →
      Over h0 g1 ∧ ∀ e ∈ ps1, FreshVal h0.length e.2 := by
  intro ps
  induction ps with
  | nil =>
    intro g g1 ps1 hg hc
    simp only [copyProps, Option.some.injEq, Prod.mk.injEq] at hc
    obtain ⟨rfl, rfl⟩ := hc
    exact ⟨hg, by simp⟩
  | cons kv rest ih =>
    intro g g1 ps1 hg hc
    rcases kv with ⟨k, v⟩
    by_cases hv : v = .undefined ∨ ∃ i, v = .func i
    · rw [copyProps_cons_skip f isArray g k v rest hv] at hc
      cases isArray with
      | false =>
        simp only [Bool.false_eq_true, if_false] at hc
        exact ih g g1 ps1 hg hc
      | true =>
        simp only [if_true] at hc
        cases hr : copyProps f true g rest with
        | none => rw [hr] at hc; simp at hc
        | some r =>
          rw [hr] at hc
          simp only [Option.map_some', Option.some.injEq, Prod.mk.injEq] at hc
          obtain ⟨rfl, rfl⟩ := hc
          obtain ⟨q1, q2⟩ := ih g r.1 r.2 hg hr
          refine ⟨q1, ?_⟩
          intro e he
          rcases List.mem_cons.mp he with h1 | h1
          · subst h1; intro b hb; simp at hb
          · exact q2 e h1
    · have hu : v ≠ .undefined := fun h => hv (Or.inl h)
      have hfn : ∀ i, v ≠ .func i := fun i h => hv (Or.inr ⟨i, h⟩)
      rw [copyProps_cons_copy f isArray g k v rest hu hfn] at hc
      cases hfv : f g v with
      | none => rw [hfv] at hc; simp at hc
      | some c =>
        rcases c with ⟨g2, v2⟩
        rw [hfv] at hc
        simp only at hc
        obtain ⟨o1, o2⟩ := hf g v g2 v2 hg hfv
        cases hr : copyProps f isArray g2 rest with
        | none => rw [hr] at hc; simp at hc
        | some r =>
          rw [hr] at hc
          simp only [Option.map_some', Option.some.injEq, Prod.mk.injEq] at hc
          obtain ⟨rfl, rfl⟩ := hc
          obtain ⟨q1, q2⟩ := ih g2 r.1 r.2 o1 hr
          refine ⟨q1, ?_⟩
          intro e he
          rcases List.mem_cons.mp he with h1 | h1
          · subst h1; exact o2
          · exact q2 e h1

theorem jsonCopy_prim (n : Nat) (g : Heap) (v : Val) (g1 : Heap) (v1 : Val)
    (hv : ∀ a, v ≠ .ref a) (hc : jsonCopy n g v = some (g1, v1)) :
    g1 = g ∧ ∀ b, v1 ≠ .ref b := by
  cases v with
  | ref a => exact absurd rfl (hv a)
  | undefined => cases n <;> simp [jsonCopy] at hc
  | func _ => cases n <;> simp [jsonCopy] at hc
  | null =>
    cases n <;> simp only [jsonCopy, Option.some.injEq, Prod.mk.injEq] at hc <;>
      exact ⟨hc.1.symm, fun b hb => by rw [← hc.2] at hb; simp at hb⟩
  | bool _ =>
    cases n <;> simp only [jsonCopy, Option.some.injEq, Prod.mk.injEq] at hc <;>
      exact ⟨hc.1.symm, fun b hb => by rw [← hc.2] at hb; simp at hb⟩
  | num _ =>
    cases n <;> simp only [jsonCopy, Option.some.injEq, Prod.mk.injEq] at hc <;>
      exact ⟨hc.1.symm, fun b hb => by rw [← hc.2] at hb; simp at hb⟩
  | nan =>
    cases n <;> simp only [jsonCopy, Option.some.injEq, Prod.mk.injEq] at hc <;>
      exact ⟨hc.1.symm, fun b hb => by rw [← hc.2] at hb; simp at hb⟩
  | str _ =>
    cases n <;> simp only [jsonCopy, Option.some.injEq, Prod.mk.injEq] at hc <;>
      exact ⟨hc.1.symm, fun b hb => by rw [← hc.2] at hb; simp at hb⟩

theorem jsonCopy_over (h0 : Heap) :
    ∀ (n : Nat) (g : Heap) (v : Val) (g1 : Heap) (v1 : Val),
      Over h0 g → jsonCopy n g v = some (g1, v1) → Over h0 g1 ∧ FreshVal h0.length v1 := by
  intro n
  induction n with
  | zero =>
    intro g v g1 v1 hg hc
    by_cases hv : ∃ a, v = .ref a
    · obtain ⟨a, rfl⟩ := hv
      simp [jsonCopy] at hc
    · obtain ⟨q1, q2⟩ := jsonCopy_prim 0 g v g1 v1 (fun a h => hv ⟨a, h⟩) hc
      subst q1
      exact ⟨hg, fun b hb => absurd hb (q2 b)⟩
  | succ n ih =>
    intro g v g1 v1 hg hc
    by_cases hv : ∃ a, v = .ref a
    · obtain ⟨a, rfl⟩ := hv
      simp only [jsonCopy] at hc
      cases hga : g[a]? with
      | none => rw [hga] at hc; simp at hc
      | some o =>
        rw [hga] at hc
        simp only at hc
        cases hcp : copyProps (fun h1 v1 => jsonCopy n h1 v1) o.isArray g o.props with
        | none => rw [hcp] at hc; simp at hc
        | some r =>
          rcases r with ⟨g2, ps⟩
          rw [hcp] at hc
          simp only [Option.some.injEq, Prod.mk.injEq] at hc
          obtain ⟨rfl, rfl⟩ := hc
          obtain ⟨q1, q2⟩ := copyProps_over h0 (fun h1 v1 => jsonCopy n h1 v1)
            (fun g v g1 v1 hg hc => ih g v g1 v1 hg hc) o.isArray o.props g g2 ps hg hcp
          refine ⟨q1.alloc _ q2, ?_⟩
          intro b hb
          simp only [Val.ref.injEq] at hb
          have := q1.length_le
          omega
    · obtain ⟨q1, q2⟩ := jsonCopy_prim (n + 1) g v g1 v1 (fun a h => hv ⟨a, h⟩) hc
      subst q1
      exact ⟨hg, fun b hb => absurd hb (q2 b)⟩

theorem setContentType_over {h0 g g1 : Heap} (hg : Over h0 g) (opts : Val) (ct : String)
    (ho : FreshVal h0.length opts) (hs : setContentType g opts ct = some g1) : Over h0 g1 := by
  unfold setContentType at hs
  simp only at hs
  by_cases hh : getProp g opts "headers" = .undefined
  · rw [if_pos hh] at hs
    cases hsp : setProp (g ++ [{ isArray := false, props := [] }]) opts "headers"
        (.ref g.length) with
    | none => rw [hsp] at hs; simp at hs
    | some g2 =>
      rw [hsp] at hs
      simp only at hs
      have hg1 : Over h0 (g ++ [{ isArray := false, props := [] }]) :=
        hg.alloc _ (by simp)
      have hg2 : Over h0 g2 := hg1.setProp opts "headers" (.ref g.length) hsp ho
        (fun b hb => by
          simp only [Val.ref.injEq] at hb
          have := hg.length_le
          omega)
      exact hg2.setProp _ "Content-Type" _ hs (hg2.getProp_fresh opts "headers" ho)
        (fun b hb => by simp at hb)
  · rw [if_neg hh] at hs
    simp only at hs
    exact hg.setProp _ "Content-Type" _ hs (hg.getProp_fresh opts "headers" ho)
      (fun b hb => by simp at hb)

theorem setProp_target {g g1 : Heap} {t : Val} {k : String} {v : Val}
    (hs : setProp g t k v = some g1) : ∃ a, t = .ref a := by
  cases t with
  | ref a => exact ⟨a, rfl⟩
  | undefined => simp [setProp] at hs
  | null => simp [setProp] at hs
  | bool _ => simp [setProp] at hs
  | num _ => simp [setProp] at hs
  | nan => simp [setProp] at hs
  | str _ => simp [setProp] at hs
  | func _ => simp [setProp] at hs

theorem createCluster_over (pf : Platform) (h : Heap) (self : Service) (params : Val) :
    Over h (createCluster pf h self params).heap ∧
      SentOnCopy h (createCluster pf h self params) := by
  unfold createCluster
  cases hc : jsonCopy (h.length + 1) h self._options with
  | none => exact ⟨Over.refl h, fun q hq => by simp at hq⟩
  | some c =>
    rcases c with ⟨h1, co⟩
    obtain ⟨o1, f1⟩ := jsonCopy_over h (h.length + 1) h self._options h1 co (Over.refl h) hc
    simp only
    have o2 : Over h (if truthy params then h1 else h1 ++ [{ isArray := false, props := [] }]) := by
      split
      · exact o1
      · exact o1.alloc _ (by simp)
    generalize (if truthy params then h1 else h1 ++ [{ isArray := false, props := [] }]) = h2
      at o2 ⊢
    cases hst : pf.stringify h2 (if truthy params then params else .ref h1.length) with
    | none => exact ⟨o2, fun q hq => by simp at hq⟩
    | some text =>
      simp only
      have hbody : FreshVal h.length (textVal text) := by
        intro b hb
        cases text <;> simp [textVal] at hb
      generalize textVal text = body at hbody ⊢
      cases hsp : setProp h2 co "body" body with
      | none => exact ⟨o2, fun q hq => by simp at hq⟩
      | some h3 =>
        simp only
        have o3 : Over h h3 := o2.setProp co "body" body hsp f1 hbody
        cases hct : setContentType h3 co "application/json" with
        | none => exact ⟨o3, fun q hq => by simp at hq⟩
        | some h4 =>
          simp only
          have o4 : Over h h4 := setContentType_over o3 co _ f1 hct
          refine ⟨o4, ?_⟩
          intro q hq
          simp only [sendRequest, List.mem_singleton, Effect.request.injEq] at hq
          subst hq
          obtain ⟨a, ha⟩ := setProp_target hsp
          subst ha
          exact ⟨a, rfl, f1 a rfl, o4.getProp_fresh _ _ f1⟩

theorem uploadConfig_over (pf : Platform) (h : Heap) (self : Service) (params : Val) :
    Over h (uploadConfig pf h self params).heap ∧
      SentOnCopy h (uploadConfig pf h self params) := by
  unfold uploadConfig
  split
  · exact ⟨Over.refl h, fun q hq => by simp [missing] at hq⟩
  · split
    · exact ⟨Over.refl h, fun q hq => by simp [missing] at hq⟩
    · split
      · exact ⟨Over.refl h, fun q hq => by simp [missing] at hq⟩
      · cases hc : jsonCopy (h.length + 1) h self._options with
        | none => exact ⟨Over.refl h, fun q hq => by simp at hq⟩
        | some c =>
          rcases c with ⟨h1, uo⟩
          obtain ⟨o1, f1⟩ :=
            jsonCopy_over h (h.length + 1) h self._options h1 uo (Over.refl h) hc
          simp only
          cases hr : pf.readFileSync (getProp h params "config_zip_path") with
          | none => exact ⟨o1, fun q hq => by simp at hq⟩
          | some bytes =>
            simp only
            have o2 : Over h (h1 ++ [bufferObj bytes]) := by
              refine o1.alloc _ ?_
              intro e he b hb
              simp only [bufferObj, List.mem_map] at he
              obtain ⟨x, _, hx⟩ := he
              rw [← hx] at hb
              simp at hb
            cases hsp : setProp (h1 ++ [bufferObj bytes]) uo "body" (.ref h1.length) with
            | none => exact ⟨o2, fun q hq => by simp at hq⟩
            | some h3 =>
              simp only
              have o3 : Over h h3 := o2.setProp uo "body" _ hsp f1
                (fun b hb => by
                  simp only [Val.ref.injEq] at hb
                  have := o1.length_le
                  omega)
              cases hct : setContentType h3 uo "application/zip" with
              | none => exact ⟨o3, fun q hq => by simp at hq⟩
              | some h4 =>
                simp only
                have o4 : Over h h4 := setContentType_over o3 uo _ f1 hct
                refine ⟨o4, ?_⟩
                intro q hq
                simp only [sendRequest, List.mem_cons, List.mem_singleton,
                  Effect.request.injEq, List.mem_nil_iff, or_false] at hq
                rcases hq with hq | hq
                · exact absurd hq (by simp)
                · subst hq
                  obtain ⟨a, ha⟩ := setProp_target hsp
                  subst ha
                  exact ⟨a, rfl, f1 a rfl, o4.getProp_fresh _ _ f1⟩

theorem Over.extends {h0 g : Heap} (hg : Over h0 g) : ∃ t, g = h0 ++ t := by
  refine ⟨g.drop h0.length, ?_⟩
  have ht : g.take h0.length = h0 := by
    apply List.ext_getElem?
    intro n
    rw [List.getElem?_take]
    split
    · rename_i hn
      exact hg.keeps n hn
    · rename_i hn
      exact (List.getElem?_eq_none (Nat.le_of_not_lt hn)).symm
  conv_lhs => rw [← List.take_append_drop h0.length g]
  rw [ht]

theorem wfHeap_iff (h : Heap) :
    wfHeap h = true ↔
      ∀ o ∈ h, ∀ e ∈ o.props, ∀ b, e.2 = Val.ref b → b < h.length := by
  unfold wfHeap
  simp only [List.all_eq_true]
  constructor
  · intro hw o ho e he b hb
    have := hw o ho e he
    rw [hb] at this
    simpa using this
  · intro hw o ho e he
    split
    · rename_i b hb
      simpa using hw o ho e he b hb
    · rfl

theorem snapshot_keeps (h0 g : Heap) (hwf : wfHeap h0 = true)
    (hk : ∀ a, a < h0.length → g[a]? = h0[a]?) :
    ∀ (n : Nat) (v : Val), (∀ b, v = .ref b → b < h0.length) →
      snapshot n g v = snapshot n h0 v := by
  intro n
  induction n with
  | zero => intro v _; cases v <;> simp [snapshot]
  | succ n ih =>
    intro v hv
    cases v with
    | ref a =>
      have ha : a < h0.length := hv a rfl
      simp only [snapshot, hk a ha]
      cases hoa : h0[a]? with
      | none => rfl
      | some o =>
        simp only
        have hmem : o ∈ h0 := by
          obtain ⟨hlt, he⟩ := List.getElem?_eq_some.mp hoa
          exact he ▸ List.getElem_mem _
        congr 1
        apply List.map_congr_left
        intro e he
        rw [ih e.2 (fun b hb => (wfHeap_iff h0).mp hwf o hmem e he b hb)]
    | undefined => simp [snapshot]
    | null => simp [snapshot]
    | bool _ => simp [snapshot]
    | num _ => simp [snapshot]
    | nan => simp [snapshot]
    | str _ => simp [snapshot]
    | func _ => simp [snapshot]

theorem setProp_wf {g g1 : Heap} (t : Val) (k : String) (v : Val)
    (hw : wfHeap g = true) (hs : setProp g t k v = some g1)
    (hv : ∀ b, v = .ref b → b < g.length) : wfHeap g1 = true ∧ g1.length = g.length := by
  obtain ⟨a, rfl⟩ := setProp_target hs
  simp only [setProp] at hs
  cases hga : g[a]? with
  | none => rw [hga] at hs; simp at hs
  | some o =>
    rw [hga] at hs
    simp only [Option.some.injEq] at hs
    subst hs
    have hlen : (g.set a (o.assign k v)).length = g.length := List.length_set _ _ _
    refine ⟨?_, hlen⟩
    rw [wfHeap_iff]
    intro o1 ho1 e he b hb
    rw [hlen]
    have hmo : o ∈ g := by
      obtain ⟨hlt, he⟩ := List.getElem?_eq_some.mp hga
      exact he ▸ List.getElem_mem _
    rcases List.mem_or_eq_of_mem_set ho1 with h1 | h1
    · exact (wfHeap_iff g).mp hw o1 h1 e he b hb
    · subst h1
      rcases mem_assign o k v e he with h2 | h2
      · exact (wfHeap_iff g).mp hw o hmo e h2 b hb
      · subst h2
        exact hv b hb

theorem constructor_wf (h : Heap) (options : Option Nat) (hw : wfHeap h = true)
    (hopt : ∀ a, options = some a → a < h.length) :
    wfHeap (RetrieveAndRank h options).1 = true ∧
      (RetrieveAndRank h options).1.length = h.length + 1 ∧
      (RetrieveAndRank h options).2._options = .ref h.length := by
  have hbase : wfHeap (h ++ [serviceDefaults]) = true := by
    rw [wfHeap_iff]
    intro o ho e he b hb
    simp only [List.length_append, List.length_singleton]
    rcases List.mem_append.mp ho with h1 | h1
    · have := (wfHeap_iff h).mp hw o h1 e he b hb
      omega
    · simp only [List.mem_singleton] at h1
      subst h1
      simp only [serviceDefaults, List.mem_cons, List.mem_singleton, List.mem_nil_iff,
        or_false] at he
      rcases he with he | he <;> subst he <;> simp at hb
  simp only [RetrieveAndRank]
  refine ⟨?_, ?_, trivial⟩ <;> (
    unfold extend
    cases options with
    | none => first | exact hbase | simp
    | some a =>
      have ha : a < h.length := hopt a rfl
      simp only
      rw [List.getElem?_append_left ha]
      cases hoa : h[a]? with
      | none => first | exact hbase | simp
      | some o =>
        simp only
        have hmo : o ∈ h := by
          obtain ⟨hlt, he⟩ := List.getElem?_eq_some.mp hoa
          exact he ▸ List.getElem_mem _
        have hps : ∀ e ∈ o.props, ∀ b, e.2 = Val.ref b → b < h.length :=
          fun e he b hb => (wfHeap_iff h).mp hw o hmo e he b hb
        have key : ∀ (ps : List (String × Val)) (g : Heap),
            (∀ e ∈ ps, ∀ b, e.2 = Val.ref b → b < h.length) →
            wfHeap g = true → g.length = h.length + 1 →
            wfHeap (ps.foldl
              (fun g e =>
                if e.2 = .undefined ∨ e.2 = .ref h.length then g
                else (setProp g (.ref h.length) e.1 e.2).getD g) g) = true ∧
            (ps.foldl
              (fun g e =>
                if e.2 = .undefined ∨ e.2 = .ref h.length then g
                else (setProp g (.ref h.length) e.1 e.2).getD g) g).length = h.length + 1 := by
          intro ps
          induction ps with
          | nil => intro g _ hg hl; exact ⟨hg, hl⟩
          | cons e ps ih =>
            intro g hps hg hl
            simp only [List.foldl_cons]
            apply ih
            · intro x hx; exact hps x (List.mem_cons_of_mem _ hx)
            · split
              · exact hg
              · cases hsp : setProp g (.ref h.length) e.1 e.2 with
                | none => exact hg
                | some g1 =>
                  exact (setProp_wf _ _ _ hg hsp (fun b hb => by
                    have := hps e (List.mem_cons_self _ _) b hb
                    omega)).1
            · split
              · exact hl
              · cases hsp : setProp g (.ref h.length) e.1 e.2 with
                | none => exact hl
                | some g1 =>
                  simp only [Option.getD_some]
                  rw [(setProp_wf _ _ _ hg hsp (fun b hb => by
                    have := hps e (List.mem_cons_self _ _) b hb
                    omega)).2]
                  exact hl
        first
        | exact (key o.props _ hps hbase (by simp)).1
        | exact (key o.props _ hps hbase (by simp)).2)

theorem ranked_iff (h : Heap) :
    ranked h = true ↔
      ∀ a o, h[a]? = some o → ∀ e ∈ o.props, ∀ b, e.2 = Val.ref b → b < a := by
  unfold ranked
  simp only [List.all_eq_true, List.mem_range]
  constructor
  · intro hr a o hao e he b hb
    have ha : a < h.length := (List.getElem?_eq_some.mp hao).1
    have h1 := hr a ha
    rw [hao] at h1
    simp only [List.all_eq_true] at h1
    have h2 := h1 e he
    rw [hb] at h2
    simpa using h2
  · intro hr a _
    cases hao : h[a]? with
    | none => rfl
    | some o =>
      simp only [List.all_eq_true]
      intro e he
      split
      · rename_i b hb
        simpa using hr a o hao e he b hb
      · rfl

/-- With fuel above the address of an object of a ranked heap, its deep copy is
produced. -/
theorem jsonCopy_total (h : Heap) (hr : ranked h = true) :
    ∀ (n : Nat) (g : Heap) (v : Val), Over h g →
      (∀ b, v = .ref b → b < n ∧ b < h.length) → v ≠ .undefined → (∀ i, v ≠ .func i) →
      ∃ r, jsonCopy n g v = some r := by
  intro n
  induction n with
  | zero =>
    intro g v _ hv hu hf
    cases v with
    | ref b => exact absurd (hv b rfl).1 (by omega)
    | undefined => exact absurd rfl hu
    | func i => exact absurd rfl (hf i)
    | null => exact ⟨_, rfl⟩
    | bool _ => exact ⟨_, rfl⟩
    | num _ => exact ⟨_, rfl⟩
    | nan => exact ⟨_, rfl⟩
    | str _ => exact ⟨_, rfl⟩
  | succ n ih =>
    intro g v hg hv hu hf
    cases v with
    | undefined => exact absurd rfl hu
    | func i => exact absurd rfl (hf i)
    | null => exact ⟨_, rfl⟩
    | bool _ => exact ⟨_, rfl⟩
    | num _ => exact ⟨_, rfl⟩
    | nan => exact ⟨_, rfl⟩
    | str _ => exact ⟨_, rfl⟩
    | ref a =>
      obtain ⟨han, hah⟩ := hv a rfl
      have hga : g[a]? = h[a]? := hg.keeps a hah
      obtain ⟨o, hoa⟩ : ∃ o, h[a]? = some o :=
        ⟨h[a], List.getElem?_eq_getElem hah⟩
      have hps : ∀ e ∈ o.props, ∀ b, e.2 = Val.ref b → b < n ∧ b < h.length := by
        intro e he b hb
        have := (ranked_iff h).mp hr a o hoa e he b hb
        omega
      have key : ∀ (ps : List (String × Val)) (g1 : Heap), Over h g1 →
          (∀ e ∈ ps, ∀ b, e.2 = Val.ref b → b < n ∧ b < h.length) →
          ∃ r, copyProps (fun h1 v1 => jsonCopy n h1 v1) o.isArray g1 ps = some r := by
        intro ps
        induction ps with
        | nil => intro g1 _ _; exact ⟨_, rfl⟩
        | cons kv rest ihp =>
          intro g1 hg1 hps1
          rcases kv with ⟨k, w⟩
          have hrest : ∀ e ∈ rest, ∀ b, e.2 = Val.ref b → b < n ∧ b < h.length :=
            fun e he => hps1 e (List.mem_cons_of_mem _ he)
          by_cases hw : w = .undefined ∨ ∃ i, w = .func i
          · rw [copyProps_cons_skip _ o.isArray g1 k w rest hw]
            obtain ⟨r, hr1⟩ := ihp g1 hg1 hrest
            rw [hr1]
            split
            · exact ⟨_, rfl⟩
            · exact ⟨_, rfl⟩
          · have hwu : w ≠ .undefined := fun q => hw (Or.inl q)
            have hwf : ∀ i, w ≠ .func i := fun i q => hw (Or.inr ⟨i, q⟩)
            rw [copyProps_cons_copy _ o.isArray g1 k w rest hwu hwf]
            obtain ⟨c, hc⟩ := ih g1 w hg1 (hps1 (k, w) (List.mem_cons_self _ _)) hwu hwf
            rcases c with ⟨g2, w2⟩
            simp only [hc]
            have hg2 : Over h g2 := (jsonCopy_over h n g1 w g2 w2 hg1 hc).1
            obtain ⟨r, hr1⟩ := ihp g2 hg2 hrest
            rw [hr1]
            exact ⟨_, rfl⟩
      obtain ⟨r, hr1⟩ := key o.props g hg hps
      simp only [jsonCopy, hga, hoa, hr1]
      exact ⟨_, rfl⟩

theorem extend_fold_spec (t : Nat) (ps : List (String × Val)) :
    ∀ g : Heap,
      (ps.foldl (fun g e =>
          if e.2 = .undefined ∨ e.2 = .ref t then g
          else (setProp g (.ref t) e.1 e.2).getD g) g).length = g.length ∧
      (∀ c, c ≠ t →
        (ps.foldl (fun g e =>
          if e.2 = .undefined ∨ e.2 = .ref t then g
          else (setProp g (.ref t) e.1 e.2).getD g) g)[c]? = g[c]?) ∧
      (∀ o1,
        (ps.foldl (fun g e =>
          if e.2 = .undefined ∨ e.2 = .ref t then g
          else (setProp g (.ref t) e.1 e.2).getD g) g)[t]? = some o1 →
        ∃ o, g[t]? = some o ∧ ∀ e ∈ o1.props, e ∈ o.props ∨ e ∈ ps) := by
  induction ps with
  | nil =>
    intro g
    exact ⟨rfl, fun _ _ => rfl, fun o1 ho1 => ⟨o1, ho1, fun e he => Or.inl he⟩⟩
  | cons x ps ih =>
    intro g
    simp only [List.foldl_cons]
    have hstep : ∃ g1, (if x.2 = .undefined ∨ x.2 = .ref t then g
          else (setProp g (.ref t) x.1 x.2).getD g) = g1 ∧ g1.length = g.length ∧
        (∀ c, c ≠ t → g1[c]? = g[c]?) ∧
        (∀ o1, g1[t]? = some o1 →
          ∃ o, g[t]? = some o ∧ ∀ e ∈ o1.props, e ∈ o.props ∨ e = x) := by
      refine ⟨_, rfl, ?_⟩
      split
      · exact ⟨rfl, fun _ _ => rfl, fun o1 ho1 => ⟨o1, ho1, fun e he => Or.inl he⟩⟩
      · cases hsp : setProp g (.ref t) x.1 x.2 with
        | none =>
          exact ⟨rfl, fun _ _ => rfl, fun o1 ho1 => ⟨o1, ho1, fun e he => Or.inl he⟩⟩
        | some g1 =>
          simp only [Option.getD_some]
          simp only [setProp] at hsp
          cases hgt : g[t]? with
          | none => rw [hgt] at hsp; simp at hsp
          | some o =>
            rw [hgt] at hsp
            simp only [Option.some.injEq] at hsp
            subst hsp
            refine ⟨List.length_set _ _ _, ?_, ?_⟩
            · intro c hc
              exact List.getElem?_set_ne (Ne.symm hc)
            · intro o1 ho1
              rw [List.getElem?_set] at ho1
              simp only [if_true] at ho1
              split at ho1
              · simp only [Option.some.injEq] at ho1
                subst ho1
                exact ⟨o, rfl, fun e he => mem_assign o x.1 x.2 e he⟩
              · exact absurd ho1 (by simp)
    obtain ⟨g1, hg1, l1, k1, m1⟩ := hstep
    rw [hg1]
    obtain ⟨l2, k2, m2⟩ := ih g1
    refine ⟨l2.trans l1, fun c hc => (k2 c hc).trans (k1 c hc), ?_⟩
    intro o1 ho1
    obtain ⟨o2, ho2, hp2⟩ := m2 o1 ho1
    obtain ⟨o, ho, hp⟩ := m1 o2 ho2
    refine ⟨o, ho, fun e he => ?_⟩
    rcases hp2 e he with q | q
    · rcases hp e q with q1 | q1
      · exact Or.inl q1
      · exact Or.inr (q1 ▸ List.mem_cons_self _ _)
    · exact Or.inr (List.mem_cons_of_mem _ q)

theorem constructor_ranked (h : Heap) (options : Option Nat) (hr : ranked h = true)
    (hopt : ∀ a, options = some a → a < h.length) :
    ranked (RetrieveAndRank h options).1 = true := by
  have hbase : ranked (h ++ [serviceDefaults]) = true := by
    rw [ranked_iff]
    intro a o hao e he b hb
    by_cases ha : a < h.length
    · rw [List.getElem?_append_left ha] at hao
      exact (ranked_iff h).mp hr a o hao e he b hb
    · rw [List.getElem?_append_right (Nat.le_of_not_lt ha)] at hao
      have hz : a - h.length = 0 := by
        by_contra hnz
        have : ([serviceDefaults] : List Obj)[a - h.length]? = none :=
          List.getElem?_eq_none (by simp; omega)
        rw [this] at hao
        exact absurd hao (by simp)
      rw [hz] at hao
      simp at hao
      subst hao
      simp only [serviceDefaults, List.mem_cons, List.mem_singleton, List.mem_nil_iff,
        or_false] at he
      rcases he with he | he <;> subst he <;> simp at hb
  simp only [RetrieveAndRank]
  unfold extend
  cases options with
  | none => exact hbase
  | some a0 =>
    have ha0 : a0 < h.length := hopt a0 rfl
    simp only
    rw [List.getElem?_append_left ha0]
    cases hoa : h[a0]? with
    | none => exact hbase
    | some o0 =>
      simp only
      obtain ⟨l1, k1, m1⟩ := extend_fold_spec h.length o0.props (h ++ [serviceDefaults])
      rw [ranked_iff]
      intro a o hao e he b hb
      by_cases hat : a = h.length
      · subst hat
        obtain ⟨o2, ho2, hp2⟩ := m1 o hao
        rw [List.getElem?_concat_length] at ho2
        simp only [Option.some.injEq] at ho2
        subst ho2
        rcases hp2 e he with q | q
        · simp only [serviceDefaults, List.mem_cons, List.mem_singleton, List.mem_nil_iff,
            or_false] at q
          rcases q with q | q <;> subst q <;> simp at hb
        · have := (ranked_iff h).mp hr a0 o0 hoa e q b hb
          omega
      · rw [k1 a hat] at hao
        exact (ranked_iff _).mp hbase a o hao e he b hb

theorem jsonCopy_ref_result (n : Nat) (g : Heap) (a : Nat) (g1 : Heap) (v1 : Val)
    (hc : jsonCopy n g (.ref a) = some (g1, v1)) : ∃ c, v1 = .ref c ∧ g1.length = c + 1 := by
  cases n with
  | zero => simp [jsonCopy] at hc
  | succ n =>
    simp only [jsonCopy] at hc
    cases hga : g[a]? with
    | none => rw [hga] at hc; simp at hc
    | some o =>
      rw [hga] at hc
      simp only at hc
      cases hcp : copyProps (fun h1 v1 => jsonCopy n h1 v1) o.isArray g o.props with
      | none => rw [hcp] at hc; simp at hc
      | some r =>
        rw [hcp] at hc
        simp only [Option.some.injEq, Prod.mk.injEq] at hc
        obtain ⟨rfl, rfl⟩ := hc
        exact ⟨_, rfl, by simp⟩

theorem lookup_cons_self (k : String) (v : Val) (l : List (String × Val)) :
    ((k, v) :: l).lookup k = some v := by
  simp [List.lookup]

theorem lookup_cons_ne (k k1 : String) (v : Val) (l : List (String × Val)) (h : k ≠ k1) :
    ((k1, v) :: l).lookup k = l.lookup k := by
  have hne : (k == k1) = false := by simpa using h
  simp [List.lookup, hne]

theorem lookup_map_assign (l : List (String × Val)) (k : String) (v : Val)
    (hany : l.any (fun e => e.1 == k) = true) :
    (l.map (fun e => if e.1 == k then (k, v) else e)).lookup k = some v := by
  induction l with
  | nil => simp at hany
  | cons x xs ih =>
    rcases x with ⟨k1, w1⟩
    rw [List.map_cons]
    by_cases hk : k1 = k
    · have hb : (k1 == k) = true := by simpa using hk
      simp only [hb, if_true]
      exact lookup_cons_self k v _
    · have hne : (k1 == k) = false := by simpa using hk
      simp only [List.any_cons, hne, Bool.false_or] at hany
      simp only [hne, Bool.false_eq_true, if_false]
      rw [lookup_cons_ne k k1 w1 _ (fun q => hk q.symm)]
      exact ih hany

theorem lookup_append_new (l : List (String × Val)) (k : String) (v : Val)
    (hany : l.any (fun e => e.1 == k) = false) :
    (l ++ [(k, v)]).lookup k = some v := by
  induction l with
  | nil => exact lookup_cons_self k v []
  | cons x xs ih =>
    rcases x with ⟨k1, w1⟩
    simp only [List.any_cons, Bool.or_eq_false_iff] at hany
    have h1 : ¬ k1 = k := by simpa using hany.1
    rw [List.cons_append, lookup_cons_ne k k1 w1 _ (fun q => h1 q.symm)]
    exact ih hany.2

theorem lookup_assign_self (o : Obj) (k : String) (v : Val) :
    (o.assign k v).props.lookup k = some v := by
  unfold Obj.assign
  cases hany : o.props.any (fun e => e.1 == k) with
  | true =>
    simp only [if_true]
    exact lookup_map_assign o.props k v hany
  | false =>
    simp only [Bool.false_eq_true, if_false]
    exact lookup_append_new o.props k v hany

theorem lookup_assign_ne (o : Obj) (k k1 : String) (v : Val) (hk : k1 ≠ k) :
    (o.assign k v).props.lookup k1 = o.props.lookup k1 := by
  have hmap : ∀ l : List (String × Val),
      (l.map (fun e => if e.1 == k then (k, v) else e)).lookup k1 = l.lookup k1 := by
    intro l
    induction l with
    | nil => rfl
    | cons x xs ih =>
      rcases x with ⟨k2, w2⟩
      rw [List.map_cons]
      by_cases h2 : k2 = k
      · have hb : (k2 == k) = true := by simpa using h2
        simp only [hb, if_true]
        rw [lookup_cons_ne k1 k v _ hk, lookup_cons_ne k1 k2 w2 _ (h2 ▸ hk), ih]
      · have hne : (k2 == k) = false := by simpa using h2
        simp only [hne, Bool.false_eq_true, if_false]
        by_cases h3 : k1 = k2
        · subst h3
          rw [lookup_cons_self, lookup_cons_self]
        · rw [lookup_cons_ne k1 k2 w2 _ h3, lookup_cons_ne k1 k2 w2 _ h3, ih]
  have happ : ∀ l : List (String × Val), (l ++ [(k, v)]).lookup k1 = l.lookup k1 := by
    intro l
    induction l with
    | nil =>
      rw [List.nil_append, lookup_cons_ne k1 k v _ hk]
    | cons x xs ih =>
      rcases x with ⟨k2, w2⟩
      rw [List.cons_append]
      by_cases h3 : k1 = k2
      · subst h3
        rw [lookup_cons_self, lookup_cons_self]
      · rw [lookup_cons_ne k1 k2 w2 _ h3, lookup_cons_ne k1 k2 w2 _ h3, ih]
  unfold Obj.assign
  cases hany : o.props.any (fun e => e.1 == k) with
  | true =>
    simp only [if_true]
    exact hmap o.props
  | false =>
    simp only [Bool.false_eq_true, if_false]
    exact happ o.props

theorem setProp_some (g : Heap) (a : Nat) (k : String) (v : Val) (o : Obj)
    (ha : g[a]? = some o) :
    setProp g (.ref a) k v = some (g.set a (o.assign k v)) := by
  simp [setProp, ha]

theorem getElem?_set_self (g : Heap) (a : Nat) (o o1 : Obj) (ha : g[a]? = some o) :
    (g.set a o1)[a]? = some o1 := by
  have hlt : a < g.length := (List.getElem?_eq_some.mp ha).1
  rw [List.getElem?_set]
  simp [hlt]

/-- The header step succeeds on an object whose `headers` is absent or an
object of the heap. -/
theorem setContentType_some (g : Heap) (c : Nat) (o : Obj) (ct : String)
    (hc : g[c]? = some o)
    (hh : o.props.lookup "headers" = none ∨
      ∃ d, o.props.lookup "headers" = some (.ref d) ∧ d < g.length) :
    ∃ g4, setContentType g (.ref c) ct = some g4 := by
  have hclt : c < g.length := (List.getElem?_eq_some.mp hc).1
  unfold setContentType
  simp only
  rcases hh with hh | ⟨d, hd, hdl⟩
  · have hget : getProp g (.ref c) "headers" = .undefined := by
      simp [getProp, hc, hh]
    rw [if_pos hget]
    have hc1 : (g ++ [({ isArray := false, props := [] } : Obj)])[c]? = some o := by
      rw [List.getElem?_append_left hclt]; exact hc
    rw [setProp_some _ c "headers" (.ref g.length) o hc1]
    simp only
    have hget2 : getProp ((g ++ [({ isArray := false, props := [] } : Obj)]).set c
        (o.assign "headers" (.ref g.length))) (.ref c) "headers" = .ref g.length := by
      simp only [getProp, getElem?_set_self _ c o _ hc1, lookup_assign_self]
      rfl
    rw [hget2]
    have hnew : ((g ++ [({ isArray := false, props := [] } : Obj)]).set c
        (o.assign "headers" (.ref g.length)))[g.length]? =
        some { isArray := false, props := [] } := by
      rw [List.getElem?_set_ne (by omega)]
      exact List.getElem?_concat_length g _
    rw [setProp_some _ g.length "Content-Type" _ _ hnew]
    exact ⟨_, rfl⟩
  · have hget : getProp g (.ref c) "headers" = .ref d := by
      simp [getProp, hc, hd]
    rw [if_neg (by rw [hget]; simp)]
    simp only [hget]
    obtain ⟨od, hod⟩ : ∃ od, g[d]? = some od := ⟨g[d], List.getElem?_eq_getElem hdl⟩
    rw [setProp_some _ d "Content-Type" _ od hod]
    exact ⟨_, rfl⟩

theorem jsonCopy_length_le (n : Nat) (g : Heap) (v : Val) (g1 : Heap) (v1 : Val)
    (hc : jsonCopy n g v = some (g1, v1)) : g.length ≤ g1.length :=
  (jsonCopy_over g n g v g1 v1 (Over.refl g) hc).1.length_le

theorem copyProps_length_le (n : Nat) (isArray : Bool) (ps : List (String × Val))
    (g g1 : Heap) (ps1 : List (String × Val))
    (hc : copyProps (fun h1 v1 => jsonCopy n h1 v1) isArray g ps = some (g1, ps1)) :
    g.length ≤ g1.length :=
  (copyProps_over g (fun h1 v1 => jsonCopy n h1 v1)
    (fun g2 v g3 v3 hg h3 => jsonCopy_over g n g2 v g3 v3 hg h3) isArray ps g g1 ps1
    (Over.refl g) hc).1.length_le

/-- In the copy of a plain object, an entry under key `k` is a new object of the
heap when every entry under `k` of the original is `undefined`, a function or an
object. -/
theorem copyProps_key_ref (n : Nat) (k : String) :
    ∀ (ps : List (String × Val)) (g g1 : Heap) (ps1 : List (String × Val)),
      copyProps (fun h1 v1 => jsonCopy n h1 v1) false g ps = some (g1, ps1) →
      (∀ e ∈ ps, e.1 = k → e.2 = .undefined ∨ (∃ i, e.2 = .func i) ∨ ∃ b, e.2 = .ref b) →
      ∀ e ∈ ps1, e.1 = k → ∃ c, e.2 = .ref c ∧ c < g1.length := by
  intro ps
  induction ps with
  | nil =>
    intro g g1 ps1 hc _ e he
    simp only [copyProps, Option.some.injEq, Prod.mk.injEq] at hc
    rw [← hc.2] at he
    simp at he
  | cons kv rest ih =>
    intro g g1 ps1 hc hps e he hek
    rcases kv with ⟨k0, v0⟩
    have hrest : ∀ e ∈ rest, e.1 = k →
        e.2 = .undefined ∨ (∃ i, e.2 = .func i) ∨ ∃ b, e.2 = .ref b :=
      fun x hx => hps x (List.mem_cons_of_mem _ hx)
    by_cases hv : v0 = .undefined ∨ ∃ i, v0 = .func i
    · rw [copyProps_cons_skip _ false g k0 v0 rest hv] at hc
      simp only [Bool.false_eq_true, if_false] at hc
      exact ih g g1 ps1 hc hrest e he hek
    · have hu : v0 ≠ .undefined := fun q => hv (Or.inl q)
      have hf : ∀ i, v0 ≠ .func i := fun i q => hv (Or.inr ⟨i, q⟩)
      rw [copyProps_cons_copy _ false g k0 v0 rest hu hf] at hc
      cases hfv : jsonCopy n g v0 with
      | none => simp only [hfv] at hc; simp at hc
      | some r =>
        rcases r with ⟨g2, v2⟩
        simp only [hfv] at hc
        cases hr : copyProps (fun h1 v1 => jsonCopy n h1 v1) false g2 rest with
        | none => rw [hr] at hc; simp at hc
        | some r2 =>
          rw [hr] at hc
          simp only [Option.map_some', Option.some.injEq, Prod.mk.injEq] at hc
          obtain ⟨rfl, rfl⟩ := hc
          rcases List.mem_cons.mp he with h1 | h1
          · subst h1
            simp only at hek
            subst hek
            rcases hps (k0, v0) (List.mem_cons_self _ _) rfl with q | ⟨i, q⟩ | ⟨b, q⟩
            · exact absurd q hu
            · exact absurd q (hf i)
            · subst q
              obtain ⟨c, hc1, hc2⟩ := jsonCopy_ref_result n g b g2 v2 hfv
              have := copyProps_length_le n false rest g2 r2.1 r2.2 hr
              exact ⟨c, hc1, by omega⟩
          · exact ih g2 r2.1 r2.2 hr hrest e h1 hek

theorem jsonCopy_ref_shape (n : Nat) (g : Heap) (a : Nat) (g1 : Heap) (v1 : Val)
    (hc : jsonCopy (n + 1) g (.ref a) = some (g1, v1)) :
    ∃ o g2 ps, g[a]? = some o ∧
      copyProps (fun h1 v1 => jsonCopy n h1 v1) o.isArray g o.props = some (g2, ps) ∧
      g1 = g2 ++ [{ isArray := o.isArray, props := ps }] ∧ v1 = .ref g2.length := by
  simp only [jsonCopy] at hc
  cases hga : g[a]? with
  | none => rw [hga] at hc; simp at hc
  | some o =>
    rw [hga] at hc
    simp only at hc
    cases hcp : copyProps (fun h1 v1 => jsonCopy n h1 v1) o.isArray g o.props with
    | none => rw [hcp] at hc; simp at hc
    | some r =>
      rcases r with ⟨g2, ps⟩
      rw [hcp] at hc
      simp only [Option.some.injEq, Prod.mk.injEq] at hc
      obtain ⟨rfl, rfl⟩ := hc
      exact ⟨o, g2, ps, rfl, hcp, rfl, rfl⟩

theorem headersSettable_iff (o : Obj) :
    headersSettable o = true ↔
      ∀ e ∈ o.props, e.1 = "headers" →
        e.2 = .undefined ∨ (∃ i, e.2 = .func i) ∨ ∃ b, e.2 = .ref b := by
  unfold headersSettable
  simp only [List.all_eq_true, Bool.or_eq_true, bne_iff_ne, ne_eq]
  constructor
  · intro hs e he hk
    rcases hs e he with q | q
    · exact absurd hk q
    · cases hv : e.2 <;> simp_all
  · intro hs e he
    by_cases hk : e.1 = "headers"
    · right
      rcases hs e he hk with q | ⟨i, q⟩ | ⟨b, q⟩ <;> simp [q]
    · exact Or.inl hk

theorem required_truthy (h : Heap) (params : Val)
    (hall : firstMissing h params Op.uploadConfig.required = none) :
    truthy params = true ∧ truthy (getProp h params "cluster_id") = true ∧
      truthy (getProp h params "config_name") = true ∧
      truthy (getProp h params "config_zip_path") = true := by
  simp only [firstMissing, Op.required, List.find?_eq_none, List.mem_cons, List.mem_singleton,
    List.mem_nil_iff, or_false, Bool.not_eq_true', Bool.not_eq_false, Bool.not_eq_eq_eq_not,
    Bool.not_true, Bool.not_false, forall_eq_or_imp, forall_eq] at hall
  obtain ⟨h1, h2, h3⟩ := hall
  have h1 : truthy (getProp h params "cluster_id") = true := by simpa using h1
  have h2 : truthy (getProp h params "config_name") = true := by simpa using h2
  have h3 : truthy (getProp h params "config_zip_path") = true := by simpa using h3
  exact ⟨truthy_of_prop h params _ h1, h1, h2, h3⟩

/-- When none of its steps throws, `uploadConfig` reads the file and sends one
request, carrying the copy of the options. -/
theorem uploadConfig_steps (pf : Platform) (h : Heap) (self : Service) (params : Val)
    (hall : firstMissing h params Op.uploadConfig.required = none)
    (g1 : Heap) (uo : Val) (bytes : List Nat) (g3 g4 : Heap)
    (hc : jsonCopy (h.length + 1) h self._options = some (g1, uo))
    (hr : pf.readFileSync (getProp h params "config_zip_path") = some bytes)
    (hb : setProp (g1 ++ [bufferObj bytes]) uo "body" (.ref g1.length) = some g3)
    (ht : setContentType g3 uo "application/zip" = some g4) :
    uploadConfig pf h self params =
      { heap := g4,
        effects := [.readFile (getProp h params "config_zip_path"),
                    .request { method := "POST",
                               url := solrConfigPath pf (getProp h params "cluster_id")
                                 (getProp h params "config_name"),
                               defaultOptions := uo }],
        threw := none } := by
  obtain ⟨h0, h1, h2, h3⟩ := required_truthy h params hall
  unfold uploadConfig
  simp only [h0, h1, h2, h3, Bool.not_true, Bool.or_self, Bool.false_eq_true, if_false, hc, hr,
    hb, ht, sendRequest]

/-- On a heap without cycles, with stored options that are a plain object whose
`headers` is absent or an object, and a file that can be read, `uploadConfig`
reads the file and sends one request. -/
theorem uploadConfig_sends (pf : Platform) (h : Heap) (self : Service) (params : Val)
    (hall : firstMissing h params Op.uploadConfig.required = none)
    (a : Nat) (o : Obj) (bytes : List Nat)
    (hrk : ranked h = true) (hs : self._options = .ref a) (ho : h[a]? = some o)
    (harr : o.isArray = false) (hh : headersSettable o = true)
    (hr : pf.readFileSync (getProp h params "config_zip_path") = some bytes) :
    ∃ g c, uploadConfig pf h self params =
      { heap := g,
        effects := [.readFile (getProp h params "config_zip_path"),
                    .request { method := "POST",
                               url := solrConfigPath pf (getProp h params "cluster_id")
                                 (getProp h params "config_name"),
                               defaultOptions := .ref c }],
        threw := none } ∧ h.length ≤ c := by
  have halt : a < h.length := (List.getElem?_eq_some.mp ho).1
  obtain ⟨r, hc⟩ := jsonCopy_total h hrk (h.length + 1) h (.ref a) (Over.refl h)
    (fun b hb => by simp only [Val.ref.injEq] at hb; omega) (by simp) (by simp)
  rcases r with ⟨g1, v1⟩
  obtain ⟨o1, g2, ps, ho1, hcp, hg1, hv1⟩ := jsonCopy_ref_shape h.length h a g1 v1 hc
  rw [ho] at ho1
  simp only [Option.some.injEq] at ho1
  subst ho1
  rw [harr] at hcp hg1
  subst hv1
  have hlen : h.length ≤ g2.length := copyProps_length_le h.length false o.props h g2 ps hcp
  have hkeys := copyProps_key_ref h.length "headers" o.props h g2 ps hcp
    ((headersSettable_iff o).mp hh)
  have hcell : (g1 ++ [bufferObj bytes])[g2.length]? =
      some { isArray := false, props := ps } := by
    rw [hg1, List.getElem?_append_left (by simp)]
    exact List.getElem?_concat_length g2 _
  have hb := setProp_some (g1 ++ [bufferObj bytes]) g2.length "body" (.ref g1.length) _ hcell
  have hcell3 := getElem?_set_self (g1 ++ [bufferObj bytes]) g2.length _
    (({ isArray := false, props := ps } : Obj).assign "body" (.ref g1.length)) hcell
  have hl3 : ((g1 ++ [bufferObj bytes]).set g2.length
      (({ isArray := false, props := ps } : Obj).assign "body" (.ref g1.length))).length =
      g2.length + 2 := by
    rw [List.length_set, hg1]
    simp
  have hhd : (({ isArray := false, props := ps } : Obj).assign "body"
        (.ref g1.length)).props.lookup "headers" = none ∨
      ∃ d, (({ isArray := false, props := ps } : Obj).assign "body"
          (.ref g1.length)).props.lookup "headers" = some (.ref d) ∧
        d < ((g1 ++ [bufferObj bytes]).set g2.length
          (({ isArray := false, props := ps } : Obj).assign "body"
            (.ref g1.length))).length := by
    rw [lookup_assign_ne _ "body" "headers" _ (by decide), hl3]
    cases hlk : ps.lookup "headers" with
    | none => exact Or.inl rfl
    | some w =>
      obtain ⟨d, hd, hdl⟩ := hkeys ("headers", w) (lookup_mem ps "headers" w hlk) rfl
      simp only at hd
      subst hd
      exact Or.inr ⟨d, rfl, by omega⟩
  obtain ⟨g4, ht⟩ := setContentType_some _ g2.length _ "application/zip" hcell3 hhd
  refine ⟨g4, g2.length, ?_, hlen⟩
  have hc2 : jsonCopy (h.length + 1) h self._options = some (g1, .ref g2.length) := by
    rw [hs]; exact hc
  exact uploadConfig_steps pf h self params hall g1 (.ref g2.length) bytes _ g4 hc2 hr hb ht

end RetrieveAndRankV1
namespace RetrieveAndRankV1

/-- Claim C8, evaluated on the code: with `cluster_id` and `collection_name`
given and `username` and `password` absent, `createSolrClient` throws nothing,
creates the Solr client and calls `basicAuth(undefined, undefined)`, although
`username` is the first documented required parameter that is missing. -/
theorem createSolrClient_skips_credentials_check :
    firstMissing solrParamsHeap (.ref 0) createSolrClientRequired = some "username" ∧
    createSolrClient samplePlatform (RetrieveAndRank solrParamsHeap none).1
        (RetrieveAndRank solrParamsHeap none).2 (.ref 0) =
      { heap := (RetrieveAndRank solrParamsHeap none).1,
        effects :=
          [.createClient
             { host := .str "gateway.watsonplatform.net",
               path := "/retrieve-and-rank/api/v1/solr_clusters/c1/solr",
               port := .str "443", secure := true, core := .str "docs" },
           .basicAuth .undefined .undefined],
        threw := none } := by
  decide

/-- Claim C7 as stated fails: `uploadConfig` with all three required parameters
present, on a platform where the file cannot be read, sends no request. -/
theorem uploadConfig_unreadable_file_sends_nothing :
    firstMissing uploadParamsHeap (.ref 0) Op.uploadConfig.required = none ∧
    ((Op.uploadConfig.call samplePlatform (RetrieveAndRank uploadParamsHeap none).1
        (RetrieveAndRank uploadParamsHeap none).2 (.ref 0)).effects.filter Effect.isRequest) = [] ∧
    (Op.uploadConfig.call samplePlatform (RetrieveAndRank uploadParamsHeap none).1
        (RetrieveAndRank uploadParamsHeap none).2 (.ref 0)).threw = some "Error" := by
  decide

/-- What `uploadConfig` does once its three checks pass. -/
theorem uploadConfig_checked (pf : Platform) (h : Heap) (self : Service) (params : Val)
    (hall : firstMissing h params Op.uploadConfig.required = none) :
    (uploadConfig pf h self params).effects.filter Effect.isCallback = [] ∧
    (((uploadConfig pf h self params).threw = none ∧
        ∃ r, (uploadConfig pf h self params).effects =
          [.readFile (getProp h params "config_zip_path"), .request r]) ∨
      ((uploadConfig pf h self params).threw ≠ none ∧
        (uploadConfig pf h self params).effects.filter Effect.isRequest = [])) ∧
    (pf.readFileSync (getProp h params "config_zip_path") = none →
      (uploadConfig pf h self params).threw ≠ none ∧
      (uploadConfig pf h self params).effects.filter Effect.isRequest = []) := by
  simp only [firstMissing, Op.required, List.find?_eq_none, List.mem_cons, List.mem_singleton,
    List.mem_nil_iff, or_false, Bool.not_eq_true', Bool.not_eq_false, Bool.not_eq_eq_eq_not,
    Bool.not_true, Bool.not_false, forall_eq_or_imp, forall_eq] at hall
  obtain ⟨h1, h2, h3⟩ := hall
  have h1 : truthy (getProp h params "cluster_id") = true := by simpa using h1
  have h2 : truthy (getProp h params "config_name") = true := by simpa using h2
  have h3 : truthy (getProp h params "config_zip_path") = true := by simpa using h3
  have h0 : truthy params = true := truthy_of_prop h params _ h1
  unfold uploadConfig
  simp only [h0, h1, h2, h3, Bool.not_true, Bool.or_self, Bool.false_eq_true, if_false]
  cases hc : jsonCopy (h.length + 1) h self._options with
  | none => simp [Effect.isRequest, Effect.isCallback]
  | some c =>
    rcases c with ⟨g1, uo⟩
    simp only
    cases hr : pf.readFileSync (getProp h params "config_zip_path") with
    | none => simp [Effect.isRequest, Effect.isCallback]
    | some bytes =>
      simp only
      cases hsp : setProp (g1 ++ [bufferObj bytes]) uo "body" (.ref g1.length) with
      | none => simp [Effect.isRequest, Effect.isCallback]
      | some g3 =>
        simp only
        cases hct : setContentType g3 uo "application/zip" with
        | none => simp [Effect.isRequest, Effect.isCallback]
        | some g4 => simp [sendRequest, Effect.isRequest, Effect.isCallback]

/-- Claim C7, amended: for each of the nine operations and every `params`, if
`params` or a documented required parameter is missing or empty (falsy), the
call does exactly one thing: it invokes the callback with `Missing required
parameter: <name>` for the first such parameter in documented order (no request,
no file read, heap untouched). If none is missing the callback is not invoked
with an error, and every operation but `uploadConfig` sends exactly one request,
with `this._options` as default options. `uploadConfig` either returns having
read the file and sent one request, or throws having sent none. It throws
whenever the file cannot be read. It reads the file and sends exactly one
`POST` request to the config path, carrying the copy of the options, whenever
the copy of the options, the file read, the write of `body` and the header step
do not throw; and they do not throw when the heap has no cycle, the stored
options are a plain object whose `headers` is absent or an object, and the file
can be read. -/
theorem required_parameters_checked (pf : Platform) (h : Heap) (self : Service)
    (params : Val) (op : Op) :
    (∀ name, firstMissing h params op.required = some name →
      op.call pf h self params =
        { heap := h, effects := [.callback ("Missing required parameter: " ++ name)],
          threw := none }) ∧
    (firstMissing h params op.required = none →
      (op.call pf h self params).effects.filter Effect.isCallback = [] ∧
      (op ≠ .uploadConfig →
        ∃ r, op.call pf h self params = { heap := h, effects := [.request r], threw := none } ∧
          r.defaultOptions = self._options) ∧
      (op = .uploadConfig →
        (((op.call pf h self params).threw = none ∧
            ∃ r, (op.call pf h self params).effects =
              [.readFile (getProp h params "config_zip_path"), .request r]) ∨
          ((op.call pf h self params).threw ≠ none ∧
            (op.call pf h self params).effects.filter Effect.isRequest = [])) ∧
        (pf.readFileSync (getProp h params "config_zip_path") = none →
          (op.call pf h self params).threw ≠ none ∧
          (op.call pf h self params).effects.filter Effect.isRequest = []) ∧
        (∀ (g1 : Heap) (uo : Val) (bytes : List Nat) (g3 g4 : Heap),
          jsonCopy (h.length + 1) h self._options = some (g1, uo) →
          pf.readFileSync (getProp h params "config_zip_path") = some bytes →
          setProp (g1 ++ [bufferObj bytes]) uo "body" (.ref g1.length) = some g3 →
          setContentType g3 uo "application/zip" = some g4 →
          op.call pf h self params =
            { heap := g4,
              effects := [.readFile (getProp h params "config_zip_path"),
                          .request { method := "POST",
                                     url := solrConfigPath pf (getProp h params "cluster_id")
                                       (getProp h params "config_name"),
                                     defaultOptions := uo }],
              threw := none }) ∧
        (∀ (a : Nat) (o : Obj) (bytes : List Nat),
          ranked h = true → self._options = .ref a → h[a]? = some o →
          o.isArray = false → headersSettable o = true →
          pf.readFileSync (getProp h params "config_zip_path") = some bytes →
          ∃ g c, op.call pf h self params =
            { heap := g,
              effects := [.readFile (getProp h params "config_zip_path"),
                          .request { method := "POST",
                                     url := solrConfigPath pf (getProp h params "cluster_id")
                                       (getProp h params "config_name"),
                                     defaultOptions := .ref c }],
              threw := none } ∧ h.length ≤ c))) := by
  by_cases hup : op = .uploadConfig
  · subst hup
    constructor
    · intro name hname
      cases h0 : truthy params with
      | false =>
        have hu : ∀ k, getProp h params k = .undefined :=
          fun k => getProp_of_falsy h params k h0
        simp [Op.required, firstMissing, List.find?, hu, truthy] at hname
        subst hname
        simp [Op.call, uploadConfig, missing, h0]
      | true =>
        simp only [Op.call, Op.required, firstMissing, List.find?, uploadConfig, missing] at *
        cases h1 : truthy (getProp h params "cluster_id") <;>
          cases h2 : truthy (getProp h params "config_name") <;>
          cases h3 : truthy (getProp h params "config_zip_path") <;>
          simp_all
    · intro hall
      obtain ⟨q1, q2, q3⟩ := uploadConfig_checked pf h self params hall
      refine ⟨q1, fun hne => absurd rfl hne, fun _ => ⟨q2, q3, ?_, ?_⟩⟩
      · intro g1 uo bytes g3 g4 hc hr hb ht
        exact uploadConfig_steps pf h self params hall g1 uo bytes g3 g4 hc hr hb ht
      · intro a o bytes hrk hs ho harr hh hr
        exact uploadConfig_sends pf h self params hall a o bytes hrk hs ho harr hh hr
  · have hmain :
        (∀ name, firstMissing h params op.required = some name →
          op.call pf h self params =
            { heap := h, effects := [.callback ("Missing required parameter: " ++ name)],
              threw := none }) ∧
        (firstMissing h params op.required = none →
          ∃ r, op.call pf h self params =
              { heap := h, effects := [.request r], threw := none } ∧
            r.defaultOptions = self._options) := by
      cases h0 : truthy params with
      | false =>
        have hu : ∀ k, getProp h params k = .undefined :=
          fun k => getProp_of_falsy h params k h0
        cases op <;>
          first
          | exact absurd rfl hup
          | simp [Op.call, Op.required, firstMissing, List.find?, pollCluster, deleteCluster,
              listConfigs, getConfig, deleteConfig, listCollections, createCollection,
              deleteCollection, missing, sendRequest, hu, h0, truthy]
      | true =>
        cases op <;>
          first
          | exact absurd rfl hup
          | (simp only [Op.call, Op.required, firstMissing, List.find?, pollCluster,
              deleteCluster, listConfigs, getConfig, deleteConfig, listCollections,
              createCollection, deleteCollection, missing, sendRequest]
             cases h1 : truthy (getProp h params "cluster_id") <;>
             cases h2 : truthy (getProp h params "config_name") <;>
             cases h3 : truthy (getProp h params "collection_name") <;>
             simp_all)
    refine ⟨hmain.1, fun hall => ?_⟩
    obtain ⟨r, hr, hd⟩ := hmain.2 hall
    refine ⟨?_, fun _ => ⟨r, hr, hd⟩, fun he => absurd he hup⟩
    rw [hr]
    simp [Effect.isCallback]

/-- Two instances of the above: `createCollection` without `collection_name`
reports it, and `uploadConfig` with all three parameters and a readable file
reads the file and sends its request. -/
theorem required_parameters_checked_witness :
    (firstMissing uploadParamsHeap (.ref 0) Op.createCollection.required =
        some "collection_name" ∧
      Op.createCollection.call samplePlatform (RetrieveAndRank uploadParamsHeap none).1
          (RetrieveAndRank uploadParamsHeap none).2 (.ref 0) =
        { heap := (RetrieveAndRank uploadParamsHeap none).1,
          effects := [.callback "Missing required parameter: collection_name"],
          threw := none }) ∧
    (firstMissing (RetrieveAndRank uploadParamsHeap none).1 (.ref 0)
        Op.uploadConfig.required = none ∧
      ∃ g c, Op.uploadConfig.call readablePlatform (RetrieveAndRank uploadParamsHeap none).1
          (RetrieveAndRank uploadParamsHeap none).2 (.ref 0) =
        { heap := g,
          effects := [.readFile (.str "/tmp/absent.zip"),
                      .request { method := "POST", url := "/v1/solr_clusters/c1/config/cfg",
                                 defaultOptions := .ref c }],
          threw := none } ∧ (RetrieveAndRank uploadParamsHeap none).1.length ≤ c) :=
  ⟨⟨by decide,
    (required_parameters_checked samplePlatform (RetrieveAndRank uploadParamsHeap none).1
      (RetrieveAndRank uploadParamsHeap none).2 (.ref 0) .createCollection).1 "collection_name"
      (by decide)⟩,
   ⟨by decide,
    ((required_parameters_checked readablePlatform (RetrieveAndRank uploadParamsHeap none).1
      (RetrieveAndRank uploadParamsHeap none).2 (.ref 0) .uploadConfig).2 (by decide)).2.2
      rfl |>.2.2.2 1 serviceDefaults [80, 75] (by decide) rfl (by decide) (by decide)
      (by decide) rfl⟩⟩

/-- Claim C9: `createCluster` and `uploadConfig` leave the stored options as
they were. For a well-formed heap, every options object given to the constructor
and every `params`, the heap after either call is the heap before it with new
objects appended, so `this._options` read to any depth (its `headers` included)
is the same before and after; and the request, when one is sent, carries an
object allocated by the call whose `headers` is not an object that existed
before the call. When the heap has no cycle, the deep copy of `this._options`
that both calls start with is produced and is a new object. -/
theorem stored_options_unchanged (pf : Platform) (h : Heap) (options : Option Nat)
    (params : Val) (hwf : wfHeap h = true) (hopt : ∀ a, options = some a → a < h.length) :
    (∀ r ∈ [createCluster pf (RetrieveAndRank h options).1 (RetrieveAndRank h options).2 params,
            uploadConfig pf (RetrieveAndRank h options).1 (RetrieveAndRank h options).2 params],
      (∃ t, r.heap = (RetrieveAndRank h options).1 ++ t) ∧
      (∀ n, snapshot n r.heap (RetrieveAndRank h options).2._options =
            snapshot n (RetrieveAndRank h options).1 (RetrieveAndRank h options).2._options) ∧
      SentOnCopy (RetrieveAndRank h options).1 r) ∧
    (ranked h = true →
      ∃ g c, jsonCopy ((RetrieveAndRank h options).1.length + 1) (RetrieveAndRank h options).1
          (RetrieveAndRank h options).2._options = some (g, .ref c) ∧
        (RetrieveAndRank h options).1.length ≤ c) := by
  obtain ⟨w1, w2, w3⟩ := constructor_wf h options hwf hopt
  have hv : ∀ b, (RetrieveAndRank h options).2._options = .ref b →
      b < (RetrieveAndRank h options).1.length := by
    intro b hb
    rw [w3] at hb
    simp only [Val.ref.injEq] at hb
    omega
  constructor
  · intro r hr
    simp only [List.mem_cons, List.mem_singleton, List.mem_nil_iff, or_false] at hr
    rcases hr with hr | hr
    · subst hr
      obtain ⟨o1, o2⟩ :=
        createCluster_over pf (RetrieveAndRank h options).1 (RetrieveAndRank h options).2 params
      exact ⟨o1.extends, fun n => snapshot_keeps _ _ w1 o1.keeps n _ hv, o2⟩
    · subst hr
      obtain ⟨o1, o2⟩ :=
        uploadConfig_over pf (RetrieveAndRank h options).1 (RetrieveAndRank h options).2 params
      exact ⟨o1.extends, fun n => snapshot_keeps _ _ w1 o1.keeps n _ hv, o2⟩
  · intro hr
    have hr1 := constructor_ranked h options hr hopt
    obtain ⟨r, hc⟩ := jsonCopy_total (RetrieveAndRank h options).1 hr1
      ((RetrieveAndRank h options).1.length + 1) (RetrieveAndRank h options).1
      (RetrieveAndRank h options).2._options (Over.refl _)
      (fun b hb => by have := hv b hb; omega)
      (by rw [w3]; simp) (by rw [w3]; simp)
    rcases r with ⟨g, v1⟩
    have hc2 := hc
    rw [w3] at hc2
    obtain ⟨c, hv1, _⟩ := jsonCopy_ref_result _ _ _ _ _ hc2
    subst hv1
    refine ⟨g, c, hc, ?_⟩
    exact (jsonCopy_over (RetrieveAndRank h options).1 _ _ _ _ _ (Over.refl _) hc).2 c rfl

/-- An instance of the above: default headers given to the constructor, then
`createCluster` with no params. -/
theorem stored_options_unchanged_witness :
    wfHeap optionsHeap = true ∧
    (createCluster readablePlatform (RetrieveAndRank optionsHeap (some 1)).1
      (RetrieveAndRank optionsHeap (some 1)).2 .undefined).threw = none ∧
    SentOnCopy (RetrieveAndRank optionsHeap (some 1)).1
      (createCluster readablePlatform (RetrieveAndRank optionsHeap (some 1)).1
        (RetrieveAndRank optionsHeap (some 1)).2 .undefined) :=
  ⟨by decide, by decide,
   ((stored_options_unchanged readablePlatform optionsHeap (some 1) .undefined (by decide)
      (by intro a ha; cases ha; decide)).1 _ (List.mem_cons_self _ _)).2.2⟩

end RetrieveAndRankV1
